import Mathlib

/-!
Verification of the `PriorityMultiLock` weighted priority admission-control
lock (file `flow/include/flow/PriorityMultiLock.actor.h`).

The development embeds the scheduler as a pure state machine.  All C++ `int`
fields are embedded as `ℤ`, FIFO queues as `List`, and the single-precision
floating point expression inside `currentCapacity` is embedded exactly: an
IEEE-754 binary32 operation returns the exact real result rounded to a
24-bit significand (round to nearest, ties to even).  The exponents arising
in this code stay far inside the normal range (the operands are positive
`int`s and their quotients), so overflow and subnormal behaviour never
arise and the rounding alone characterises every operation.  To keep the
model evaluable by the kernel, rationals are represented as unnormalised
fractions of integers (`Frac`), related to `ℚ` by `Frac.val`.
-/

set_option maxRecDepth 4000

namespace PMLVerify

/-- An unnormalised fraction `n / d`; every constructor used by the model
keeps `d` positive. -/
structure Frac where
  n : ℤ
  d : ℤ
deriving DecidableEq, Repr

namespace Frac

/-- Value of a fraction as a rational. -/
def val (x : Frac) : ℚ := (x.n : ℚ) / (x.d : ℚ)

/-- Embed an integer. -/
def ofInt (z : ℤ) : Frac := ⟨z, 1⟩

/-- Exact product. -/
def mul (x y : Frac) : Frac := ⟨x.n * y.n, x.d * y.d⟩

/-- Exact quotient. -/
def div (x y : Frac) : Frac := ⟨x.n * y.d, x.d * y.n⟩

/-- Negation. -/
def neg (x : Frac) : Frac := ⟨-x.n, x.d⟩

/-- Power of two as a fraction. -/
def pow2 (e : ℤ) : Frac := if 0 ≤ e then ⟨2 ^ e.toNat, 1⟩ else ⟨1, 2 ^ (-e).toNat⟩

end Frac

/-- Largest `e ≤ fuel` with `2^e ≤ x` (for `1 ≤ x < 2^(fuel+1)`), scanning
downward so that the recursion is structural in the fuel.  The comparison
`2^(f+1) ≤ n/d` is the integer comparison `2^(f+1)·d ≤ n` (`d > 0`). -/
def findExp : ℕ → Frac → ℕ
  | 0, _ => 0
  | f + 1, x => if (2 : ℤ) ^ (f + 1) * x.d ≤ x.n then f + 1 else findExp f x

/-- Floor of the base-2 logarithm of a positive fraction, valid for values
in `(2^(-127), 2^127)`, which covers every value the scheduler can build. -/
def exp2floorPos (x : Frac) : ℤ :=
  if x.d ≤ x.n then (findExp 126 x : ℤ)
  else
    if x.d ≤ x.n * 2 ^ (findExp 126 ⟨x.d, x.n⟩) then -(findExp 126 ⟨x.d, x.n⟩ : ℤ)
    else -(findExp 126 ⟨x.d, x.n⟩ : ℤ) - 1

/-- Round a positive fraction to the nearest integer, ties to even. -/
def rneF (x : Frac) : ℤ :=
  if 2 * (x.n - x.n.fdiv x.d * x.d) < x.d then x.n.fdiv x.d
  else if x.d < 2 * (x.n - x.n.fdiv x.d * x.d) then x.n.fdiv x.d + 1
  else if x.n.fdiv x.d % 2 = 0 then x.n.fdiv x.d else x.n.fdiv x.d + 1

/-- Round a positive fraction to the nearest IEEE-754 binary32 value:
scale into `[2^23, 2^24)`, round to nearest integer (ties to even), and
scale back. -/
def rnd32Pos (x : Frac) : Frac :=
  Frac.mul (Frac.ofInt (rneF (Frac.mul x (Frac.pow2 (23 - exp2floorPos x)))))
    (Frac.pow2 (exp2floorPos x - 23))

/-- Round any fraction to the nearest IEEE-754 binary32 value. -/
def rnd32 (x : Frac) : Frac :=
  if 0 < x.n then rnd32Pos x
  else if x.n = 0 then ⟨0, 1⟩
  else Frac.neg (rnd32Pos (Frac.neg x))

/-- Ceiling of a fraction with positive denominator. -/
def ceilF (x : Frac) : ℤ := -(Int.fdiv (-x.n) x.d)

/-- Source: `PriorityMultiLock::currentCapacity`.
`return ceil((float)weight / totalPendingWeights * concurrency);`
The three `int` operands are converted to `float` (a rounding, lossy above
`2^24`), the division and the multiplication are performed in single
precision (each result rounded once), and `ceil` on the promoted `double`
is exact.  Per the source comment the result is meaningful only when the
priority has waiters (so `totalPendingWeights ≥ weight > 0`). -/
def currentCapacity (weight totalPendingWeights concurrency : ℤ) : ℤ :=
  ceilF (rnd32 (Frac.mul
    (rnd32 (Frac.div (rnd32 (Frac.ofInt weight)) (rnd32 (Frac.ofInt totalPendingWeights))))
    (rnd32 (Frac.ofInt concurrency))))

example : currentCapacity 3 5 25 = 16 := by decide
example : currentCapacity 1 2 2 = 1 := by decide
example : currentCapacity 1 1 2 = 2 := by decide
example : currentCapacity 3 4 10 = 8 := by decide

/-! ## The scheduler state -/

/-- Source: `PriorityMultiLock::Lock`.  A grant is a one-shot
`Promise<Void>`; `resolved` is true once the promise can no longer be set
(it was sent, or broken by the holder dropping every copy). -/
structure Lock where
  resolved : Bool
deriving DecidableEq, Repr

/-- Modelled from the spec: the one-shot signal underlying a Grant "can
only be set once; calling after it's already resolved must be safely
ignored, not fatal" (§4.6; §6 "send(value) (at most once)").  The `Promise`
type itself lives in `flow/flow.h`, which is not among this repository's
sources, so its at-most-once send behaviour is taken from the spec.
`Lock::release` is `promise.send(Void())`. -/
def Lock.release (_ : Lock) : Lock := ⟨true⟩

/-- Source: `PriorityMultiLock::Lock::isLocked`, `promise.canBeSet()`. -/
def Lock.isLocked (g : Lock) : Bool := !g.resolved

/-- Source: `PriorityMultiLock::Priority` — per-priority record. -/
structure Pri where
  weight : ℤ
  runners : ℤ
  queue : List ℕ
deriving DecidableEq, Repr

/-- Source: the fields of `PriorityMultiLock`, plus specification-only
(ghost) fields that record observable history: `halted` (the runner future
was cancelled), `nextId` (arrival stamp handed to the next waiter),
`grantLog` (the sequence of (priority, waiter) pairs granted by the
dispatch loop), `spawned` (how many `handleRelease` actors were started),
and `errored` (waiters whose promise was dropped with `broken_promise`). -/
structure PML where
  concurrency : ℤ
  available : ℤ
  waiting : ℤ
  totalPendingWeights : ℤ
  priorities : List Pri
  waitingPriorities : List ℕ
  cursor : ℕ
  killed : Bool
  halted : Bool
  nextId : ℕ
  grantLog : List (ℕ × ℕ)
  spawned : ℕ
  errored : List ℕ
deriving DecidableEq, Repr

/-- Queue of priority `i` (empty list when `i` is out of range). -/
def qAt (s : PML) (i : ℕ) : List ℕ := ((s.priorities[i]?).map Pri.queue).getD []

/-- Runner count of priority `i` (0 when `i` is out of range). -/
def runnersAt (s : PML) (i : ℕ) : ℤ := ((s.priorities[i]?).map Pri.runners).getD 0

/-- Weight of priority `i` (0 when `i` is out of range). -/
def wAt (s : PML) (i : ℕ) : ℤ := ((s.priorities[i]?).map Pri.weight).getD 0

/-- Source: the two-argument constructor.  `available = concurrency`, all
counters zero, one record per configured weight, and the runner's scan
iterator starts at `waitingPriorities.end()` (position 0 of the empty
list). -/
def init (concurrency : ℤ) (weightsByPriority : List ℤ) : PML :=
  { concurrency := concurrency
    available := concurrency
    waiting := 0
    totalPendingWeights := 0
    priorities := weightsByPriority.map fun w => ⟨w, 0, []⟩
    waitingPriorities := []
    cursor := 0
    killed := false
    halted := false
    nextId := 0
    grantLog := []
    spawned := 0
    errored := [] }

/-- Source: `PriorityMultiLock::addRunner` — `priority->runners += 1;
--available;` and spawn a `handleRelease` actor for the new grant. -/
def addRunner (s : PML) (i : ℕ) : PML :=
  match s.priorities[i]? with
  | none => s
  | some p =>
    { s with priorities := s.priorities.set i { p with runners := p.runners + 1 }
             available := s.available - 1
             spawned := s.spawned + 1 }

/-- Result of a call to `PriorityMultiLock::lock`. -/
inductive LockResult where
  /-- The call threw `broken_promise` because the lock was killed. -/
  | broken : LockResult
  /-- Fast path: a ready `Lock` was returned synchronously. -/
  | granted : Lock → LockResult
  /-- Slow path: a waiter with this arrival stamp was enqueued. -/
  | queued : ℕ → LockResult
deriving DecidableEq, Repr

/-- Source: `PriorityMultiLock::lock` (lines 104–139).  `none` models the
undefined behaviour of `priorities[priority]` when the index is out of
bounds (`std::vector::operator[]` is unchecked); note the `killed` test
precedes the indexing, so a killed lock throws before touching the vector.
On the fast path the tentative `totalPendingWeights += weight` is undone
(`totalPendingWeights -= p.weight`, line 120) because the queue remains
empty; on the slow path it is kept and the priority joins
`waitingPriorities`. -/
def lock (i : ℕ) (s : PML) : Option (LockResult × PML) :=
  if s.killed then some (.broken, s)
  else
    match s.priorities[i]? with
    | none => none
    | some p =>
      if p.queue = [] then
        if 0 < s.available ∧
            p.runners < currentCapacity p.weight (s.totalPendingWeights + p.weight) s.concurrency then
          some (.granted ⟨false⟩,
            addRunner { s with totalPendingWeights := s.totalPendingWeights + p.weight - p.weight } i)
        else
          some (.queued s.nextId,
            { s with totalPendingWeights := s.totalPendingWeights + p.weight
                     waitingPriorities := s.waitingPriorities ++ [i]
                     priorities := s.priorities.set i { p with queue := p.queue ++ [s.nextId] }
                     waiting := s.waiting + 1
                     nextId := s.nextId + 1 })
      else
        some (.queued s.nextId,
          { s with priorities := s.priorities.set i { p with queue := p.queue ++ [s.nextId] }
                   waiting := s.waiting + 1
                   nextId := s.nextId + 1 })

/-- Source: `PriorityMultiLock::handleRelease` (lines 255–274) after the
holder's future completes, in success or failure alike: `++available;
priority->runners -= 1;` and the runner is woken when waiters exist (the
wakeup itself carries no state and is represented by the dispatch step). -/
def handleRelease (s : PML) (i : ℕ) : PML :=
  match s.priorities[i]? with
  | none => s
  | some p =>
    { s with available := s.available + 1
             priorities := s.priorities.set i { p with runners := p.runners - 1 } }

/-- Applying `Lock.release` to a grant held at priority `i` together with
its scheduler-side effect: the grant's `handleRelease` actor is waiting on
the one-shot future, so it runs exactly when the promise transitions from
unset to set.  Releasing an already-resolved grant sends nothing (the
one-shot signal is already set) and therefore runs no handler. -/
def releaseGrant (s : PML) (i : ℕ) (g : Lock) : PML × Lock :=
  if g.resolved then (s, g) else (handleRelease s i, g.release)

/-- Source: `PriorityMultiLock::halt` (lines 144–156): cancel the runner
(`halted`; `fRunner` stays valid after `cancel()`, so the adjustment body
runs on every call — idempotent because `concurrency` is 0 afterwards),
`available -= concurrency; concurrency = 0;`, and clear
`waitingPriorities`.  Queues and `waiting` are left untouched. -/
def halt (s : PML) : PML :=
  { s with halted := true
           available := s.available - s.concurrency
           concurrency := 0
           waitingPriorities := [] }

/-- Waiter ids of every queued waiter, in priority order. -/
def queuedIds (s : PML) : List ℕ := (s.priorities.map Pri.queue).flatten

/-- Source: `PriorityMultiLock::kill` (lines 160–169): if not yet killed,
set `killed` first (so that a waiter retrying from its error handler fails
immediately), then `halt()`, then clear every priority's queue — each
destroyed waiter's promise delivers `broken_promise` (recorded in
`errored`).  `waiting` is NOT reset.  Idempotent via the `killed` test. -/
def kill (s : PML) : PML :=
  if s.killed then s
  else
    { halt { s with killed := true } with
        priorities := s.priorities.map fun p => { p with queue := [] }
        errored := s.errored ++ queuedIds s }

/-- Source: `runner`'s inner scan condition (line 316): non-empty queue and
runners strictly below the current capacity. -/
def eligible (s : PML) (j : ℕ) : Bool :=
  !(qAt s j).isEmpty &&
    decide (runnersAt s j < currentCapacity (wAt s j) s.totalPendingWeights s.concurrency)

/-- Source: `runner`'s inner loop (lines 309–320): starting from the
persistent iterator (wrapping from `end` to `begin`), probe each member of
`waitingPriorities` once; if no member is eligible the loop in the source
never exits (`none`). -/
def scanFrom (s : PML) : Option ℕ :=
  (s.waitingPriorities.drop s.cursor ++ s.waitingPriorities.take s.cursor).find? (eligible s)

/-- Source: one iteration of `runner`'s launch loop (lines 305–356), at a
quiescent point where the loop re-evaluates its condition: requires
`available > 0 && waiting > 0`; find the next eligible priority; pop its
front waiter; if the queue became empty remove the priority from
`waitingPriorities` and subtract its weight; `--waiting`; send the new
`Lock` to the waiter, whose continuation may run inline and release it
synchronously (`sync = true`); finally, only if the promise can still be
set, `addRunner`.  `none` when the preconditions fail, when the scan never
terminates, or in states the scheduler cannot actually reach (an eligible
priority without a waiter). -/
def dispatchOnce (sync : Bool) (s : PML) : Option (PML × ℕ × Lock) :=
  if 0 < s.available ∧ 0 < s.waiting then
    match scanFrom s with
    | none => none
    | some j =>
      match s.priorities[j]? with
      | none => none
      | some p =>
        match p.queue with
        | [] => none
        | wid :: rest =>
          let s1 : PML :=
            { s with
                priorities := s.priorities.set j { p with queue := rest }
                cursor := s.waitingPriorities.indexOf j
                waitingPriorities :=
                  if rest = [] then s.waitingPriorities.erase j else s.waitingPriorities
                totalPendingWeights :=
                  if rest = [] then s.totalPendingWeights - p.weight
                  else s.totalPendingWeights
                waiting := s.waiting - 1
                grantLog := s.grantLog ++ [(j, wid)] }
          if sync then some (s1, j, ⟨true⟩) else some (addRunner s1 j, j, ⟨false⟩)
  else none

/-- Source: `maxPriority`. -/
def maxPriority (s : PML) : ℤ := (s.priorities.length : ℤ) - 1

/-- Source: the no-argument `getRunnersCount`. -/
def getRunnersCount (s : PML) : ℤ := s.concurrency - s.available

/-- Source: the no-argument `getWaitersCount`. -/
def getWaitersCountTotal (s : PML) : ℤ := s.waiting

/-- Source: `getWaitersCount(priority)` — `ASSERT(priority <
priorities.size())` then a checked read; `none` models the assertion
firing (a defined crash, unlike the unchecked indexing in `lock`). -/
def getWaitersCount (i : ℕ) (s : PML) : Option ℤ :=
  match s.priorities[i]? with
  | none => none
  | some p => some (p.queue.length : ℤ)

/-- Source: `getRunnersCount(priority)` — same assertion pattern. -/
def getRunnersCountAt (i : ℕ) (s : PML) : Option ℤ :=
  match s.priorities[i]? with
  | none => none
  | some p => some p.runners

/-- One transition of the scheduler.  `releaseStep` fires for a priority
with a positive runner count: each live grant at priority `i` has exactly
one outstanding `handleRelease` actor, and `runners i` counts those. -/
inductive Step : PML → PML → Prop where
  | lockStep {s s' : PML} {i : ℕ} {r : LockResult} :
      lock i s = some (r, s') → Step s s'
  | releaseStep {s : PML} {i : ℕ} :
      i < s.priorities.length → 0 < runnersAt s i → Step s (handleRelease s i)
  | dispatchStep {s s' : PML} {j : ℕ} {g : Lock} {sync : Bool} :
      dispatchOnce sync s = some (s', j, g) → Step s s'
  | haltStep {s : PML} : Step s (halt s)
  | killStep {s : PML} : Step s (kill s)

/-- Reachability from a state by scheduler transitions. -/
def Reach : PML → PML → Prop := Relation.ReflTransGen Step

/-! ## Derived quantities and the state invariant -/

/-- Total number of runners across priorities. -/
def sumRunners (s : PML) : ℤ := (s.priorities.map Pri.runners).sum

/-- Total queued waiters across priorities. -/
def sumQueues (s : PML) : ℤ := (s.priorities.map fun p => (p.queue.length : ℤ)).sum

/-- The scheduler's state invariant.  It holds at every quiescent point of
a run in which `halt`/`kill` have not yet occurred. -/
structure Inv (s : PML) : Prop where
  slots : s.available + sumRunners s = s.concurrency
  avail_nonneg : 0 ≤ s.available
  runners_nonneg : ∀ p ∈ s.priorities, 0 ≤ p.runners
  weights_pos : ∀ p ∈ s.priorities, 1 ≤ p.weight
  wait_eq : s.waiting = sumQueues s
  tpw_eq : s.totalPendingWeights = (s.waitingPriorities.map (wAt s)).sum
  active_mem : ∀ j ∈ s.waitingPriorities, j < s.priorities.length
  active_nodup : s.waitingPriorities.Nodup
  active_iff : ∀ j < s.priorities.length, (j ∈ s.waitingPriorities ↔ qAt s j ≠ [])

/-! Sanity checks of the model on the spec's §8 scenarios. -/

example :
    (lock 0 (init 2 [1, 1])).map (fun r => r.1) = some (.granted ⟨false⟩) := by decide

example :
    ((lock 0 (init 2 [1, 1])).bind fun r => lock 0 r.2).map (fun r => r.1) =
      some (.granted ⟨false⟩) := by decide

example :
    ((lock 0 (init 1 [1])).bind fun r => lock 0 r.2).map (fun r => r.1) =
      some (.queued 0) := by decide

example :
    (kill (init 2 [1, 1])).killed = true := by decide

/-- The invariant, conditional on the scheduler not yet being halted. -/
def InvH (s : PML) : Prop := s.halted = false → Inv s

/-- Waiter ids granted at priority `i`, in grant order. -/
def grantIdsAt (i : ℕ) (log : List (ℕ × ℕ)) : List ℕ :=
  (log.filter fun e => e.1 == i).map Prod.snd

/-- Ghost invariant for FIFO dispatch: per priority, the ids granted so
far followed by the ids still queued are strictly increasing (ids are
handed out in arrival order by `lock`), and all are below the next
arrival stamp. -/
def Fifo (s : PML) : Prop :=
  ∀ i : ℕ, List.Pairwise (· < ·) (grantIdsAt i s.grantLog ++ qAt s i) ∧
    ∀ a ∈ grantIdsAt i s.grantLog ++ qAt s i, a < s.nextId

/-! ## States used to instantiate theorems on concrete inputs -/

/-- State of `init 1 [1]` after one fast-path `lock 0`. -/
def exFast : PML := ⟨1, 0, 0, 0, [⟨1, 1, []⟩], [], 0, false, false, 0, [], 1, []⟩

/-- State of `exFast` after a second `lock 0`, which queues waiter 0. -/
def exQueued : PML := ⟨1, 0, 1, 1, [⟨1, 1, [0]⟩], [0], 0, false, false, 1, [], 1, []⟩

/-- A one-priority state with one free slot and one queued waiter. -/
def exReady : PML := ⟨1, 1, 1, 1, [⟨1, 0, [5]⟩], [0], 0, false, false, 6, [], 0, []⟩

/-- Result of dispatching `exReady`'s waiter without a synchronous release. -/
def exReadyAfter : PML := ⟨1, 0, 0, 0, [⟨1, 1, []⟩], [], 0, false, false, 6, [(0, 5)], 1, []⟩

/-- A small invariant state with a free slot and one eligible waiter. -/
def exElig : PML :=
  ⟨2, 1, 1, 1, [⟨1, 1, [7]⟩], [0], 0, false, false, 8, [], 0, []⟩

/-! ### C7 counterexample: at `concurrency = 2^24` the guarantee fails.

With weights 556019486 and 1097954098 the float capacities at total
pending weight 1653973584 are 5640029 and 11137186, which sum to
`concurrency - 1`: a reachable state has `available = 1`, `waiting = 2`
and no eligible priority, so the scan spins forever. -/

/-- After `k` fast-path locks at priority 0 from a fresh lock. -/
def stateA (k : ℕ) : PML :=
  ⟨16777216, 16777216 - (k : ℤ), 0, 0,
    [⟨556019486, (k : ℤ), []⟩, ⟨1097954098, 0, []⟩],
    [], 0, false, false, 0, [], k, []⟩

/-- After 5640029 fast locks at priority 0 and `m` more at priority 1. -/
def stateB (m : ℕ) : PML :=
  ⟨16777216, 16777216 - 5640029 - (m : ℤ), 0, 0,
    [⟨556019486, 5640029, []⟩, ⟨1097954098, (m : ℤ), []⟩],
    [], 0, false, false, 0, [], 5640029 + m, []⟩

/-- All 2^24 slots taken; one waiter queued at priority 0. -/
def stateQ1 : PML :=
  ⟨16777216, 0, 1, 556019486,
    [⟨556019486, 5640029, [0]⟩, ⟨1097954098, 11137187, []⟩],
    [0], 0, false, false, 1, [], 16777216, []⟩

/-- A second waiter queued at priority 1. -/
def stateQ2 : PML :=
  ⟨16777216, 0, 2, 556019486 + 1097954098,
    [⟨556019486, 5640029, [0]⟩, ⟨1097954098, 11137187, [1]⟩],
    [0, 1], 0, false, false, 2, [], 16777216, []⟩

/-- One runner of priority 1 released: a slot is free, two waiters are
queued, yet both priorities sit exactly at their float capacity. -/
def stateBad : PML :=
  ⟨16777216, 1, 2, 556019486 + 1097954098,
    [⟨556019486, 5640029, [0]⟩, ⟨1097954098, 11137186, [1]⟩],
    [0, 1], 0, false, false, 2, [], 16777216, []⟩

/-! ## List bookkeeping helpers -/

theorem sum_map_set {α : Type} (f : α → ℤ) :
    ∀ (l : List α) (i : ℕ) (p a : α), l[i]? = some p →
      ((l.set i a).map f).sum = (l.map f).sum - f p + f a := by
  intro l
  induction l with
  | nil => intro i p a h; simp at h
  | cons x t ih =>
    intro i p a h
    cases i with
    | zero =>
      simp only [List.getElem?_cons_zero, Option.some.injEq] at h
      subst h
      simp only [List.set_cons_zero, List.map_cons, List.sum_cons]
      ring
    | succ n =>
      simp only [List.getElem?_cons_succ] at h
      simp only [List.set_cons_succ, List.map_cons, List.sum_cons, ih n p a h]
      ring

theorem sum_map_erase (f : ℕ → ℤ) :
    ∀ (l : List ℕ) (j : ℕ), j ∈ l →
      ((l.erase j).map f).sum = (l.map f).sum - f j := by
  intro l
  induction l with
  | nil => intro j h; simp at h
  | cons x t ih =>
    intro j h
    by_cases hxj : x = j
    · subst hxj
      simp only [List.erase_cons_head, List.map_cons, List.sum_cons]
      ring
    · have hjt : j ∈ t := by
        rcases List.mem_cons.mp h with h1 | h1
        · exact absurd h1.symm hxj
        · exact h1
      rw [List.erase_cons_tail]
      · simp only [List.map_cons, List.sum_cons, ih j hjt]
        ring
      · simp [hxj]

theorem getElem?_set_self {α : Type} (l : List α) (i : ℕ) (a : α) (h : i < l.length) :
    (l.set i a)[i]? = some a :=
  List.getElem?_set_eq_of_lt a h

theorem getElem?_set_other {α : Type} (l : List α) (i j : ℕ) (a : α) (h : i ≠ j) :
    (l.set i a)[j]? = l[j]? :=
  List.getElem?_set_ne h

/-! ## The invariant holds initially and is preserved -/

theorem inv_init (c : ℤ) (ws : List ℤ) (hc : 0 ≤ c) (hws : ∀ w ∈ ws, 1 ≤ w) :
    Inv (init c ws) := by
  constructor
  · show c + sumRunners (init c ws) = c
    have : sumRunners (init c ws) = 0 := by
      apply List.sum_eq_zero
      intro x hx
      simp only [sumRunners, init, List.map_map, List.mem_map] at hx
      obtain ⟨w, _, rfl⟩ := hx
      rfl
    rw [this]; ring
  · exact hc
  · intro p hp
    simp only [init, List.mem_map] at hp
    obtain ⟨w, _, rfl⟩ := hp
    exact le_refl 0
  · intro p hp
    simp only [init, List.mem_map] at hp
    obtain ⟨w, hw, rfl⟩ := hp
    exact hws w hw
  · show (0 : ℤ) = sumQueues (init c ws)
    have : sumQueues (init c ws) = 0 := by
      apply List.sum_eq_zero
      intro x hx
      simp only [sumQueues, init, List.map_map, List.mem_map] at hx
      obtain ⟨w, _, rfl⟩ := hx
      rfl
    rw [this]
  · simp [init]
  · intro j hj
    simp [init] at hj
  · simp [init]
  · intro j hj
    constructor
    · intro hmem
      simp [init] at hmem
    · intro hq
      exfalso
      apply hq
      simp only [init] at hj ⊢
      simp only [qAt]
      rw [List.getElem?_map]
      rw [List.getElem?_eq_getElem (by simpa using hj)]
      simp

theorem lock_halted {s s' : PML} {i : ℕ} {r : LockResult}
    (h : lock i s = some (r, s')) : s'.halted = s.halted := by
  unfold lock at h
  split at h
  · simp only [Option.some.injEq, Prod.mk.injEq] at h
    rw [← h.2]
  · split at h
    · exact absurd h (by simp)
    · rename_i p hp
      split at h
      · split at h
        · simp only [Option.some.injEq, Prod.mk.injEq] at h
          rw [← h.2]
          simp [addRunner]
          split <;> rfl
        · simp only [Option.some.injEq, Prod.mk.injEq] at h
          rw [← h.2]
      · simp only [Option.some.injEq, Prod.mk.injEq] at h
        rw [← h.2]

theorem mem_of_index {l : List Pri} {i : ℕ} {p : Pri} (hp : l[i]? = some p) : p ∈ l := by
  obtain ⟨hi, he⟩ := List.getElem?_eq_some.mp hp
  exact he ▸ List.getElem_mem hi

theorem index_lt {l : List Pri} {i : ℕ} {p : Pri} (hp : l[i]? = some p) : i < l.length :=
  (List.getElem?_eq_some.mp hp).1

theorem weight_proj_set {l : List Pri} {i : ℕ} {p : Pri} (p' : Pri)
    (hp : l[i]? = some p) (hw : p'.weight = p.weight) :
    ∀ j : ℕ, ((l.set i p')[j]?).map Pri.weight = (l[j]?).map Pri.weight := by
  intro j
  by_cases hij : i = j
  · subst hij
    rw [getElem?_set_self _ _ _ (index_lt hp), hp]
    simp [hw]
  · rw [getElem?_set_other _ _ _ _ hij]

theorem addRunner_eq {s : PML} {i : ℕ} {p : Pri} (hp : s.priorities[i]? = some p) :
    addRunner s i =
      { s with priorities := s.priorities.set i { p with runners := p.runners + 1 }
               available := s.available - 1
               spawned := s.spawned + 1 } := by
  unfold addRunner
  rw [hp]

theorem inv_lock {s s' : PML} {i : ℕ} {r : LockResult}
    (hs : Inv s) (h : lock i s = some (r, s')) : Inv s' := by
  unfold lock at h
  split at h
  · -- killed: state unchanged
    simp only [Option.some.injEq, Prod.mk.injEq] at h
    rw [← h.2]
    exact hs
  · split at h
    · exact absurd h (by simp)
    · rename_i p hp
      have hi : i < s.priorities.length := index_lt hp
      have hpmem : p ∈ s.priorities := mem_of_index hp
      split at h
      · rename_i hq
        split at h
        · -- fast path
          rename_i hcond
          simp only [Option.some.injEq, Prod.mk.injEq] at h
          have hflat : addRunner
              { s with totalPendingWeights := s.totalPendingWeights + p.weight - p.weight } i =
              { s with totalPendingWeights := s.totalPendingWeights + p.weight - p.weight
                       priorities := s.priorities.set i { p with runners := p.runners + 1 }
                       available := s.available - 1
                       spawned := s.spawned + 1 } := by
            rw [addRunner_eq (s :=
              { s with totalPendingWeights := s.totalPendingWeights + p.weight - p.weight })
              (p := p) hp]
          rw [hflat] at h
          rw [← h.2]
          constructor
          · show s.available - 1 + ((s.priorities.set i { p with runners := p.runners + 1 }).map
              Pri.runners).sum = s.concurrency
            rw [sum_map_set Pri.runners s.priorities i p _ hp]
            have := hs.slots
            simp only [sumRunners] at this
            simp only
            omega
          · show (0 : ℤ) ≤ s.available - 1
            omega
          · intro x hx
            rcases List.mem_or_eq_of_mem_set hx with hx | rfl
            · exact hs.runners_nonneg x hx
            · have := hs.runners_nonneg p hpmem
              simp only
              omega
          · intro x hx
            rcases List.mem_or_eq_of_mem_set hx with hx | rfl
            · exact hs.weights_pos x hx
            · exact hs.weights_pos p hpmem
          · show s.waiting = _
            have : sumQueues { s with
                priorities := s.priorities.set i { p with runners := p.runners + 1 }
                available := s.available - 1
                spawned := s.spawned + 1
                totalPendingWeights := s.totalPendingWeights + p.weight - p.weight } =
                sumQueues s := by
              simp only [sumQueues]
              rw [sum_map_set _ s.priorities i p _ hp]
              ring
            rw [this]
            exact hs.wait_eq
          · show s.totalPendingWeights + p.weight - p.weight = _
            have hmap : s.waitingPriorities.map
                (wAt { s with
                  priorities := s.priorities.set i { p with runners := p.runners + 1 }
                  available := s.available - 1
                  spawned := s.spawned + 1
                  totalPendingWeights := s.totalPendingWeights + p.weight - p.weight }) =
                s.waitingPriorities.map (wAt s) := by
              apply List.map_congr_left
              intro j _
              simp only [wAt]
              rw [weight_proj_set { p with runners := p.runners + 1 } hp rfl j]
            rw [hmap]
            have := hs.tpw_eq
            omega
          · intro j hj
            simp only [List.length_set]
            exact hs.active_mem j hj
          · exact hs.active_nodup
          · intro j hj
            simp only [List.length_set] at hj
            by_cases hij : i = j
            · subst hij
              have hcur : qAt s i = [] := by
                simp [qAt, hp, hq]
              have hnot : i ∉ s.waitingPriorities := by
                intro hmem
                exact ((hs.active_iff i hi).mp hmem) hcur
              have hq' : qAt { s with
                  priorities := s.priorities.set i { p with runners := p.runners + 1 }
                  available := s.available - 1
                  spawned := s.spawned + 1
                  totalPendingWeights := s.totalPendingWeights + p.weight - p.weight } i = [] := by
                simp only [qAt]
                rw [getElem?_set_self _ _ _ hi]
                simp [hq]
              constructor
              · intro hmem; exact absurd hmem hnot
              · intro hne; exact absurd hq' hne
            · have hqj : qAt { s with
                  priorities := s.priorities.set i { p with runners := p.runners + 1 }
                  available := s.available - 1
                  spawned := s.spawned + 1
                  totalPendingWeights := s.totalPendingWeights + p.weight - p.weight } j =
                  qAt s j := by
                simp only [qAt]
                rw [getElem?_set_other _ _ _ _ hij]
              rw [hqj]
              exact hs.active_iff j hj
        · -- slow path from an empty queue: enqueue and activate
          rename_i hcond
          simp only [Option.some.injEq, Prod.mk.injEq] at h
          rw [← h.2]
          have hnotmem : i ∉ s.waitingPriorities := by
            intro hmem
            exact ((hs.active_iff i hi).mp hmem) (by simp [qAt, hp, hq])
          constructor
          · show s.available + _ = s.concurrency
            have := hs.slots
            simp only [sumRunners] at this ⊢
            rw [sum_map_set Pri.runners s.priorities i p _ hp]
            simp only
            omega
          · exact hs.avail_nonneg
          · intro x hx
            rcases List.mem_or_eq_of_mem_set hx with hx | rfl
            · exact hs.runners_nonneg x hx
            · exact hs.runners_nonneg p hpmem
          · intro x hx
            rcases List.mem_or_eq_of_mem_set hx with hx | rfl
            · exact hs.weights_pos x hx
            · exact hs.weights_pos p hpmem
          · show s.waiting + 1 = _
            simp only [sumQueues]
            rw [sum_map_set _ s.priorities i p _ hp]
            have := hs.wait_eq
            simp only [sumQueues] at this
            simp only [List.length_append, List.length_cons, List.length_nil]
            push_cast
            omega
          · show s.totalPendingWeights + p.weight = _
            rw [List.map_append]
            have hmap : s.waitingPriorities.map
                (wAt { s with
                  totalPendingWeights := s.totalPendingWeights + p.weight
                  waitingPriorities := s.waitingPriorities ++ [i]
                  priorities := s.priorities.set i { p with queue := p.queue ++ [s.nextId] }
                  waiting := s.waiting + 1
                  nextId := s.nextId + 1 }) =
                s.waitingPriorities.map (wAt s) := by
              apply List.map_congr_left
              intro j _
              simp only [wAt]
              rw [weight_proj_set { p with queue := p.queue ++ [s.nextId] } hp rfl j]
            rw [hmap, List.sum_append]
            have hwi : wAt { s with
                totalPendingWeights := s.totalPendingWeights + p.weight
                waitingPriorities := s.waitingPriorities ++ [i]
                priorities := s.priorities.set i { p with queue := p.queue ++ [s.nextId] }
                waiting := s.waiting + 1
                nextId := s.nextId + 1 } i = p.weight := by
              simp only [wAt]
              rw [getElem?_set_self _ _ _ hi]
              rfl
            simp only [List.map_cons, List.map_nil, List.sum_cons, List.sum_nil, hwi]
            have := hs.tpw_eq
            omega
          · intro j hj
            simp only [List.length_set]
            rcases List.mem_append.mp hj with hj | hj
            · exact hs.active_mem j hj
            · simp only [List.mem_singleton] at hj
              exact hj ▸ hi
          · simp only [List.nodup_append, List.nodup_cons, List.not_mem_nil, not_false_iff,
              List.nodup_nil, and_true, List.disjoint_singleton]
            exact ⟨hs.active_nodup, trivial, hnotmem⟩
          · intro j hj
            simp only [List.length_set] at hj
            by_cases hij : i = j
            · subst hij
              constructor
              · intro _
                simp only [qAt]
                rw [getElem?_set_self _ _ _ hi]
                simp
              · intro _
                exact List.mem_append.mpr (Or.inr (List.mem_singleton.mpr rfl))
            · have hqj : qAt { s with
                  totalPendingWeights := s.totalPendingWeights + p.weight
                  waitingPriorities := s.waitingPriorities ++ [i]
                  priorities := s.priorities.set i { p with queue := p.queue ++ [s.nextId] }
                  waiting := s.waiting + 1
                  nextId := s.nextId + 1 } j = qAt s j := by
                simp only [qAt]
                rw [getElem?_set_other _ _ _ _ hij]
              rw [hqj]
              constructor
              · intro hmem
                rcases List.mem_append.mp hmem with hmem | hmem
                · exact (hs.active_iff j hj).mp hmem
                · simp only [List.mem_singleton] at hmem
                  exact absurd hmem.symm hij
              · intro hne
                exact List.mem_append.mpr (Or.inl ((hs.active_iff j hj).mpr hne))
      · -- queue already non-empty: enqueue only
        rename_i hq
        simp only [Option.some.injEq, Prod.mk.injEq] at h
        rw [← h.2]
        constructor
        · show s.available + _ = s.concurrency
          have := hs.slots
          simp only [sumRunners] at this ⊢
          rw [sum_map_set Pri.runners s.priorities i p _ hp]
          simp only
          omega
        · exact hs.avail_nonneg
        · intro x hx
          rcases List.mem_or_eq_of_mem_set hx with hx | rfl
          · exact hs.runners_nonneg x hx
          · exact hs.runners_nonneg p hpmem
        · intro x hx
          rcases List.mem_or_eq_of_mem_set hx with hx | rfl
          · exact hs.weights_pos x hx
          · exact hs.weights_pos p hpmem
        · show s.waiting + 1 = _
          simp only [sumQueues]
          rw [sum_map_set _ s.priorities i p _ hp]
          have := hs.wait_eq
          simp only [sumQueues] at this
          simp only [List.length_append, List.length_cons, List.length_nil]
          push_cast
          omega
        · show s.totalPendingWeights = _
          have hmap : s.waitingPriorities.map
              (wAt { s with
                priorities := s.priorities.set i { p with queue := p.queue ++ [s.nextId] }
                waiting := s.waiting + 1
                nextId := s.nextId + 1 }) =
              s.waitingPriorities.map (wAt s) := by
            apply List.map_congr_left
            intro j _
            simp only [wAt]
            rw [weight_proj_set { p with queue := p.queue ++ [s.nextId] } hp rfl j]
          rw [hmap]
          exact hs.tpw_eq
        · intro j hj
          simp only [List.length_set]
          exact hs.active_mem j hj
        · exact hs.active_nodup
        · intro j hj
          simp only [List.length_set] at hj
          by_cases hij : i = j
          · subst hij
            constructor
            · intro _
              simp only [qAt]
              rw [getElem?_set_self _ _ _ hi]
              simp
            · intro _
              exact (hs.active_iff i hi).mpr (by simp [qAt, hp, hq])
          · have hqj : qAt { s with
                priorities := s.priorities.set i { p with queue := p.queue ++ [s.nextId] }
                waiting := s.waiting + 1
                nextId := s.nextId + 1 } j = qAt s j := by
              simp only [qAt]
              rw [getElem?_set_other _ _ _ _ hij]
            rw [hqj]
            exact hs.active_iff j hj

theorem inv_addRunner {s : PML} {i : ℕ} {p : Pri}
    (hs : Inv s) (hp : s.priorities[i]? = some p) (hav : 0 < s.available) :
    Inv (addRunner s i) := by
  have hi : i < s.priorities.length := index_lt hp
  have hpmem : p ∈ s.priorities := mem_of_index hp
  rw [addRunner_eq hp]
  constructor
  · show s.available - 1 + _ = s.concurrency
    have := hs.slots
    simp only [sumRunners] at this ⊢
    rw [sum_map_set Pri.runners s.priorities i p _ hp]
    simp only
    omega
  · show (0 : ℤ) ≤ s.available - 1
    omega
  · intro x hx
    rcases List.mem_or_eq_of_mem_set hx with hx | rfl
    · exact hs.runners_nonneg x hx
    · have := hs.runners_nonneg p hpmem
      simp only
      omega
  · intro x hx
    rcases List.mem_or_eq_of_mem_set hx with hx | rfl
    · exact hs.weights_pos x hx
    · exact hs.weights_pos p hpmem
  · show s.waiting = _
    simp only [sumQueues]
    rw [sum_map_set _ s.priorities i p _ hp]
    have := hs.wait_eq
    simp only [sumQueues] at this
    simp only
    omega
  · show s.totalPendingWeights = _
    have hmap : s.waitingPriorities.map
        (wAt { s with priorities := s.priorities.set i { p with runners := p.runners + 1 }
                      available := s.available - 1
                      spawned := s.spawned + 1 }) =
        s.waitingPriorities.map (wAt s) := by
      apply List.map_congr_left
      intro j _
      simp only [wAt]
      rw [weight_proj_set { p with runners := p.runners + 1 } hp rfl j]
    rw [hmap]
    exact hs.tpw_eq
  · intro j hj
    simp only [List.length_set]
    exact hs.active_mem j hj
  · exact hs.active_nodup
  · intro j hj
    simp only [List.length_set] at hj
    have hqj : qAt { s with priorities := s.priorities.set i { p with runners := p.runners + 1 }
                            available := s.available - 1
                            spawned := s.spawned + 1 } j = qAt s j := by
      simp only [qAt]
      by_cases hij : i = j
      · subst hij
        rw [getElem?_set_self _ _ _ hi, hp]
        rfl
      · rw [getElem?_set_other _ _ _ _ hij]
    rw [hqj]
    exact hs.active_iff j hj

theorem inv_handleRelease {s : PML} {i : ℕ}
    (hs : Inv s) (hi : i < s.priorities.length) (hr : 0 < runnersAt s i) :
    Inv (handleRelease s i) := by
  have hp : s.priorities[i]? = some s.priorities[i] := List.getElem?_eq_getElem hi
  have hpmem : s.priorities[i] ∈ s.priorities := mem_of_index hp
  have hrp : 0 < (s.priorities[i]).runners := by
    simpa [runnersAt, hp] using hr
  have hflat : handleRelease s i =
      { s with available := s.available + 1
               priorities := s.priorities.set i
                 { s.priorities[i] with runners := (s.priorities[i]).runners - 1 } } := by
    unfold handleRelease
    rw [hp]
  rw [hflat]
  constructor
  · show s.available + 1 + _ = s.concurrency
    have := hs.slots
    simp only [sumRunners] at this ⊢
    rw [sum_map_set Pri.runners s.priorities i s.priorities[i] _ hp]
    simp only
    omega
  · have := hs.avail_nonneg
    show (0 : ℤ) ≤ s.available + 1
    omega
  · intro x hx
    rcases List.mem_or_eq_of_mem_set hx with hx | rfl
    · exact hs.runners_nonneg x hx
    · simp only
      omega
  · intro x hx
    rcases List.mem_or_eq_of_mem_set hx with hx | rfl
    · exact hs.weights_pos x hx
    · exact hs.weights_pos s.priorities[i] hpmem
  · show s.waiting = _
    simp only [sumQueues]
    rw [sum_map_set _ s.priorities i s.priorities[i] _ hp]
    have := hs.wait_eq
    simp only [sumQueues] at this
    simp only
    omega
  · show s.totalPendingWeights = _
    have hmap : s.waitingPriorities.map
        (wAt { s with available := s.available + 1
                      priorities := s.priorities.set i
                        { s.priorities[i] with runners := (s.priorities[i]).runners - 1 } }) =
        s.waitingPriorities.map (wAt s) := by
      apply List.map_congr_left
      intro j _
      simp only [wAt]
      rw [weight_proj_set
        { s.priorities[i] with runners := (s.priorities[i]).runners - 1 } hp rfl j]
    rw [hmap]
    exact hs.tpw_eq
  · intro j hj
    simp only [List.length_set]
    exact hs.active_mem j hj
  · exact hs.active_nodup
  · intro j hj
    simp only [List.length_set] at hj
    have hqj : qAt { s with available := s.available + 1
                            priorities := s.priorities.set i
                              { s.priorities[i] with
                                  runners := (s.priorities[i]).runners - 1 } } j = qAt s j := by
      simp only [qAt]
      by_cases hij : i = j
      · subst hij
        rw [getElem?_set_self _ _ _ hi, hp]
        rfl
      · rw [getElem?_set_other _ _ _ _ hij]
    rw [hqj]
    exact hs.active_iff j hj

/-- Inversion of a successful dispatch: the precondition held, the scan
found `j`, `j`'s queue began with `wid`, and the result is the explicit
post-state. -/
theorem dispatchOnce_inv {sync : Bool} {s : PML} {out : PML × ℕ × Lock}
    (h : dispatchOnce sync s = some out) :
    ∃ j p wid rest,
      (0 < s.available ∧ 0 < s.waiting) ∧
      scanFrom s = some j ∧
      s.priorities[j]? = some p ∧
      p.queue = wid :: rest ∧
      out = (if sync
        then ({ s with
            priorities := s.priorities.set j { p with queue := rest }
            cursor := s.waitingPriorities.indexOf j
            waitingPriorities :=
              if rest = [] then s.waitingPriorities.erase j else s.waitingPriorities
            totalPendingWeights :=
              if rest = [] then s.totalPendingWeights - p.weight else s.totalPendingWeights
            waiting := s.waiting - 1
            grantLog := s.grantLog ++ [(j, wid)] }, j, (⟨true⟩ : Lock))
        else (addRunner { s with
            priorities := s.priorities.set j { p with queue := rest }
            cursor := s.waitingPriorities.indexOf j
            waitingPriorities :=
              if rest = [] then s.waitingPriorities.erase j else s.waitingPriorities
            totalPendingWeights :=
              if rest = [] then s.totalPendingWeights - p.weight else s.totalPendingWeights
            waiting := s.waiting - 1
            grantLog := s.grantLog ++ [(j, wid)] } j, j, (⟨false⟩ : Lock))) := by
  unfold dispatchOnce at h
  split at h
  · rename_i hcond
    split at h
    · exact absurd h (by simp)
    · rename_i j hsc
      split at h
      · exact absurd h (by simp)
      · rename_i p hp
        split at h
        · exact absurd h (by simp)
        · rename_i wid rest hqe
          refine ⟨j, p, wid, rest, hcond, hsc, hp, hqe, ?_⟩
          split at h <;> split <;> simp_all
  · exact absurd h (by simp)

/-- Membership of the scan's result in the active list, and its
eligibility. -/
theorem scanFrom_mem {s : PML} {j : ℕ} (h : scanFrom s = some j) :
    j ∈ s.waitingPriorities ∧ eligible s j = true := by
  unfold scanFrom at h
  refine ⟨?_, List.find?_some h⟩
  have := List.mem_of_find?_eq_some h
  rcases List.mem_append.mp this with h1 | h1
  · exact List.mem_of_mem_drop h1
  · exact List.mem_of_mem_take h1

theorem inv_pop {s : PML} {j0 : ℕ} {p : Pri} {wid : ℕ} {rest : List ℕ}
    (hs : Inv s) (hp : s.priorities[j0]? = some p) (hqe : p.queue = wid :: rest)
    (hj0mem : j0 ∈ s.waitingPriorities) :
    Inv { s with
      priorities := s.priorities.set j0 { p with queue := rest }
      cursor := s.waitingPriorities.indexOf j0
      waitingPriorities :=
        if rest = [] then s.waitingPriorities.erase j0 else s.waitingPriorities
      totalPendingWeights :=
        if rest = [] then s.totalPendingWeights - p.weight else s.totalPendingWeights
      waiting := s.waiting - 1
      grantLog := s.grantLog ++ [(j0, wid)] } := by
  have hj0lt : j0 < s.priorities.length := index_lt hp
  have hpmem : p ∈ s.priorities := mem_of_index hp
  constructor
  · show s.available + _ = s.concurrency
    have := hs.slots
    simp only [sumRunners] at this ⊢
    rw [sum_map_set Pri.runners s.priorities j0 p _ hp]
    simp only
    omega
  · exact hs.avail_nonneg
  · intro x hx
    rcases List.mem_or_eq_of_mem_set hx with hx | rfl
    · exact hs.runners_nonneg x hx
    · exact hs.runners_nonneg p hpmem
  · intro x hx
    rcases List.mem_or_eq_of_mem_set hx with hx | rfl
    · exact hs.weights_pos x hx
    · exact hs.weights_pos p hpmem
  · show s.waiting - 1 = _
    simp only [sumQueues]
    rw [sum_map_set _ s.priorities j0 p _ hp]
    have := hs.wait_eq
    simp only [sumQueues] at this
    simp only [hqe, List.length_cons]
    push_cast
    omega
  · show (if rest = [] then s.totalPendingWeights - p.weight else s.totalPendingWeights) = _
    have hwproj := weight_proj_set { p with queue := rest } hp rfl
    by_cases hrest : rest = []
    · simp only [if_pos hrest]
      have hmap : (s.waitingPriorities.erase j0).map
          (wAt { s with
            priorities := s.priorities.set j0 { p with queue := rest }
            cursor := s.waitingPriorities.indexOf j0
            waitingPriorities := s.waitingPriorities.erase j0
            totalPendingWeights := s.totalPendingWeights - p.weight
            waiting := s.waiting - 1
            grantLog := s.grantLog ++ [(j0, wid)] }) =
          (s.waitingPriorities.erase j0).map (wAt s) := by
        apply List.map_congr_left
        intro j' _
        simp only [wAt]
        rw [hwproj j']
      rw [hmap, sum_map_erase _ _ _ hj0mem]
      have := hs.tpw_eq
      have hw : wAt s j0 = p.weight := by simp [wAt, hp]
      omega
    · simp only [if_neg hrest]
      have hmap : s.waitingPriorities.map
          (wAt { s with
            priorities := s.priorities.set j0 { p with queue := rest }
            cursor := s.waitingPriorities.indexOf j0
            waitingPriorities := s.waitingPriorities
            totalPendingWeights := s.totalPendingWeights
            waiting := s.waiting - 1
            grantLog := s.grantLog ++ [(j0, wid)] }) =
          s.waitingPriorities.map (wAt s) := by
        apply List.map_congr_left
        intro j' _
        simp only [wAt]
        rw [hwproj j']
      rw [hmap]
      exact hs.tpw_eq
  · intro j' hj'
    simp only [List.length_set]
    by_cases hrest : rest = []
    · simp only [if_pos hrest] at hj'
      exact hs.active_mem j' (List.mem_of_mem_erase hj')
    · simp only [if_neg hrest] at hj'
      exact hs.active_mem j' hj'
  · by_cases hrest : rest = []
    · simp only [if_pos hrest]
      exact hs.active_nodup.erase j0
    · simp only [if_neg hrest]
      exact hs.active_nodup
  · intro j' hj'
    simp only [List.length_set] at hj'
    have hqj0 : qAt { s with
        priorities := s.priorities.set j0 { p with queue := rest }
        cursor := s.waitingPriorities.indexOf j0
        waitingPriorities :=
          if rest = [] then s.waitingPriorities.erase j0 else s.waitingPriorities
        totalPendingWeights :=
          if rest = [] then s.totalPendingWeights - p.weight else s.totalPendingWeights
        waiting := s.waiting - 1
        grantLog := s.grantLog ++ [(j0, wid)] } j0 = rest := by
      simp only [qAt]
      rw [getElem?_set_self _ _ _ hj0lt]
      rfl
    have hqne : ∀ j'' : ℕ, j'' ≠ j0 → qAt { s with
        priorities := s.priorities.set j0 { p with queue := rest }
        cursor := s.waitingPriorities.indexOf j0
        waitingPriorities :=
          if rest = [] then s.waitingPriorities.erase j0 else s.waitingPriorities
        totalPendingWeights :=
          if rest = [] then s.totalPendingWeights - p.weight else s.totalPendingWeights
        waiting := s.waiting - 1
        grantLog := s.grantLog ++ [(j0, wid)] } j'' = qAt s j'' := by
      intro j'' hne
      simp only [qAt]
      rw [getElem?_set_other _ _ _ _ (fun e => hne e.symm)]
    by_cases hjj : j' = j0
    · subst hjj
      rw [hqj0]
      by_cases hrest : rest = []
      · simp only [if_pos hrest]
        constructor
        · intro hmem
          exact absurd hmem hs.active_nodup.not_mem_erase
        · intro hne
          exact absurd hrest hne
      · simp only [if_neg hrest]
        constructor
        · intro _
          exact hrest
        · intro _
          exact hj0mem
    · rw [hqne j' hjj]
      by_cases hrest : rest = []
      · simp only [if_pos hrest]
        rw [List.mem_erase_of_ne hjj]
        exact hs.active_iff j' hj'
      · simp only [if_neg hrest]
        exact hs.active_iff j' hj'

theorem inv_dispatch {sync : Bool} {s s' : PML} {j : ℕ} {g : Lock}
    (hs : Inv s) (h : dispatchOnce sync s = some (s', j, g)) : Inv s' := by
  obtain ⟨j0, p, wid, rest, ⟨hav, hwait⟩, hsc, hp, hqe, hout⟩ := dispatchOnce_inv h
  have hj0mem : j0 ∈ s.waitingPriorities := (scanFrom_mem hsc).1
  have hj0lt : j0 < s.priorities.length := hs.active_mem j0 hj0mem
  have hinv1 := inv_pop hs hp hqe hj0mem
  cases sync with
  | false =>
    simp only [Bool.false_eq_true, if_false, Prod.mk.injEq] at hout
    rw [hout.1]
    have hp1 : ({ s with
        priorities := s.priorities.set j0 { p with queue := rest }
        cursor := s.waitingPriorities.indexOf j0
        waitingPriorities :=
          if rest = [] then s.waitingPriorities.erase j0 else s.waitingPriorities
        totalPendingWeights :=
          if rest = [] then s.totalPendingWeights - p.weight else s.totalPendingWeights
        waiting := s.waiting - 1
        grantLog := s.grantLog ++ [(j0, wid)] } : PML).priorities[j0]? =
        some { p with queue := rest } := by
      show (s.priorities.set j0 { p with queue := rest })[j0]? = _
      exact getElem?_set_self _ _ _ hj0lt
    exact inv_addRunner hinv1 hp1 hav
  | true =>
    simp only [if_true, Prod.mk.injEq] at hout
    rw [hout.1]
    exact hinv1

theorem handleRelease_halted (s : PML) (i : ℕ) : (handleRelease s i).halted = s.halted := by
  unfold handleRelease
  split <;> rfl

theorem addRunner_halted (s : PML) (i : ℕ) : (addRunner s i).halted = s.halted := by
  unfold addRunner
  split <;> rfl

theorem dispatch_halted {sync : Bool} {s s' : PML} {j : ℕ} {g : Lock}
    (h : dispatchOnce sync s = some (s', j, g)) : s'.halted = s.halted := by
  obtain ⟨j0, p, wid, rest, _, _, _, _, hout⟩ := dispatchOnce_inv h
  cases sync with
  | false =>
    simp only [Bool.false_eq_true, if_false, Prod.mk.injEq] at hout
    rw [hout.1, addRunner_halted]
  | true =>
    simp only [if_true, Prod.mk.injEq] at hout
    rw [hout.1]

theorem kill_of_killed {s : PML} (h : s.killed = true) : kill s = s := by
  unfold kill
  rw [h]
  rfl

theorem kill_halted {s : PML} (h : s.killed = false) : (kill s).halted = true := by
  unfold kill
  rw [h]
  rfl

theorem invH_step {s s' : PML} (h : InvH s) (st : Step s s') : InvH s' := by
  intro hh
  cases st with
  | lockStep hl =>
    have hhs : s.halted = false := by rw [← lock_halted hl]; exact hh
    exact inv_lock (h hhs) hl
  | releaseStep hlt hr =>
    have hhs : s.halted = false := by rw [← handleRelease_halted s _]; exact hh
    exact inv_handleRelease (h hhs) hlt hr
  | dispatchStep hd =>
    have hhs : s.halted = false := by rw [← dispatch_halted hd]; exact hh
    exact inv_dispatch (h hhs) hd
  | haltStep =>
    exact absurd hh (by simp [halt])
  | killStep =>
    rcases Bool.eq_false_or_eq_true s.killed with hk | hk
    · rw [kill_of_killed hk] at hh ⊢
      exact h hh
    · exact absurd hh (by rw [kill_halted hk]; simp)

/-- Every state reachable from a well-formed initial configuration
satisfies the invariant as long as the scheduler has not been halted. -/
theorem reach_invH {c : ℤ} {ws : List ℤ} {s : PML}
    (hc : 0 ≤ c) (hws : ∀ w ∈ ws, 1 ≤ w) (h : Reach (init c ws) s) : InvH s := by
  induction h with
  | refl => exact fun _ => inv_init c ws hc hws
  | tail _ st ih => exact invH_step ih st

/-! ## Per-operation bookkeeping deltas -/

theorem kill_killed (s : PML) : (kill s).killed = true := by
  unfold kill
  split
  · rename_i h
    exact h
  · rfl

theorem lock_slots {s s' : PML} {i : ℕ} {r : LockResult} (h : lock i s = some (r, s')) :
    s'.available + sumRunners s' = s.available + sumRunners s ∧
    s'.concurrency = s.concurrency := by
  unfold lock at h
  split at h
  · simp only [Option.some.injEq, Prod.mk.injEq] at h
    rw [← h.2]
    exact ⟨rfl, rfl⟩
  · split at h
    · exact absurd h (by simp)
    · rename_i p hp
      split at h
      · split at h
        · simp only [Option.some.injEq, Prod.mk.injEq] at h
          have hflat : addRunner
              { s with totalPendingWeights := s.totalPendingWeights + p.weight - p.weight } i =
              { s with totalPendingWeights := s.totalPendingWeights + p.weight - p.weight
                       priorities := s.priorities.set i { p with runners := p.runners + 1 }
                       available := s.available - 1
                       spawned := s.spawned + 1 } := by
            rw [addRunner_eq (s :=
              { s with totalPendingWeights := s.totalPendingWeights + p.weight - p.weight })
              (p := p) hp]
          rw [hflat] at h
          rw [← h.2]
          constructor
          · show s.available - 1 + _ = _
            simp only [sumRunners]
            rw [sum_map_set Pri.runners s.priorities i p _ hp]
            simp only
            omega
          · rfl
        · simp only [Option.some.injEq, Prod.mk.injEq] at h
          rw [← h.2]
          constructor
          · show s.available + _ = _
            simp only [sumRunners]
            rw [sum_map_set Pri.runners s.priorities i p _ hp]
            simp only
            omega
          · rfl
      · simp only [Option.some.injEq, Prod.mk.injEq] at h
        rw [← h.2]
        constructor
        · show s.available + _ = _
          simp only [sumRunners]
          rw [sum_map_set Pri.runners s.priorities i p _ hp]
          simp only
          omega
        · rfl

theorem handleRelease_slots (s : PML) (i : ℕ) (hi : i < s.priorities.length) :
    (handleRelease s i).available + sumRunners (handleRelease s i) =
      s.available + sumRunners s ∧
    (handleRelease s i).concurrency = s.concurrency := by
  have hp : s.priorities[i]? = some s.priorities[i] := List.getElem?_eq_getElem hi
  have hflat : handleRelease s i =
      { s with available := s.available + 1
               priorities := s.priorities.set i
                 { s.priorities[i] with runners := (s.priorities[i]).runners - 1 } } := by
    unfold handleRelease
    rw [hp]
  rw [hflat]
  constructor
  · show s.available + 1 + _ = _
    simp only [sumRunners]
    rw [sum_map_set Pri.runners s.priorities i s.priorities[i] _ hp]
    simp only
    omega
  · rfl

theorem dispatch_slots {sync : Bool} {s s' : PML} {j : ℕ} {g : Lock}
    (h : dispatchOnce sync s = some (s', j, g)) :
    s'.available + sumRunners s' = s.available + sumRunners s ∧
    s'.concurrency = s.concurrency := by
  obtain ⟨j0, p, wid, rest, _, hsc, hp, hqe, hout⟩ := dispatchOnce_inv h
  have hj0lt : j0 < s.priorities.length := index_lt hp
  have hsum1 : ((s.priorities.set j0 { p with queue := rest }).map Pri.runners).sum =
      sumRunners s := by
    simp only [sumRunners]
    rw [sum_map_set Pri.runners s.priorities j0 p _ hp]
    simp only
    omega
  cases sync with
  | false =>
    simp only [Bool.false_eq_true, if_false, Prod.mk.injEq] at hout
    rw [hout.1]
    have hp1 : (s.priorities.set j0 { p with queue := rest })[j0]? =
        some { p with queue := rest } := getElem?_set_self _ _ _ hj0lt
    rw [addRunner_eq (p := { p with queue := rest }) hp1]
    constructor
    · show s.available - 1 + _ = _
      simp only [sumRunners]
      rw [sum_map_set Pri.runners _ j0 { p with queue := rest } _ hp1]
      simp only [List.map_set] at hsum1 ⊢
      simp only [sumRunners] at hsum1
      omega
    · rfl
  | true =>
    simp only [if_true, Prod.mk.injEq] at hout
    rw [hout.1]
    constructor
    · show s.available + _ = _
      simp only [sumRunners]
      simp only [sumRunners] at hsum1
      rw [hsum1]
    · rfl

theorem lock_waitq {s s' : PML} {i : ℕ} {r : LockResult} (h : lock i s = some (r, s')) :
    s'.waiting - sumQueues s' = s.waiting - sumQueues s := by
  unfold lock at h
  split at h
  · simp only [Option.some.injEq, Prod.mk.injEq] at h
    rw [← h.2]
  · split at h
    · exact absurd h (by simp)
    · rename_i p hp
      split at h
      · split at h
        · simp only [Option.some.injEq, Prod.mk.injEq] at h
          have hflat : addRunner
              { s with totalPendingWeights := s.totalPendingWeights + p.weight - p.weight } i =
              { s with totalPendingWeights := s.totalPendingWeights + p.weight - p.weight
                       priorities := s.priorities.set i { p with runners := p.runners + 1 }
                       available := s.available - 1
                       spawned := s.spawned + 1 } := by
            rw [addRunner_eq (s :=
              { s with totalPendingWeights := s.totalPendingWeights + p.weight - p.weight })
              (p := p) hp]
          rw [hflat] at h
          rw [← h.2]
          show s.waiting - _ = _
          simp only [sumQueues]
          rw [sum_map_set _ s.priorities i p _ hp]
          simp only
          omega
        · simp only [Option.some.injEq, Prod.mk.injEq] at h
          rw [← h.2]
          show s.waiting + 1 - _ = _
          simp only [sumQueues]
          rw [sum_map_set _ s.priorities i p _ hp]
          simp only [List.length_append, List.length_cons, List.length_nil]
          push_cast
          omega
      · simp only [Option.some.injEq, Prod.mk.injEq] at h
        rw [← h.2]
        show s.waiting + 1 - _ = _
        simp only [sumQueues]
        rw [sum_map_set _ s.priorities i p _ hp]
        simp only [List.length_append, List.length_cons, List.length_nil]
        push_cast
        omega

theorem handleRelease_waitq (s : PML) (i : ℕ) :
    (handleRelease s i).waiting - sumQueues (handleRelease s i) =
      s.waiting - sumQueues s := by
  unfold handleRelease
  split
  · rfl
  · rename_i p hp
    show s.waiting - _ = _
    simp only [sumQueues]
    rw [sum_map_set _ s.priorities i p _ hp]
    simp only
    omega

theorem halt_waitq (s : PML) :
    (halt s).waiting - sumQueues (halt s) = s.waiting - sumQueues s := rfl

theorem dispatch_waitq {sync : Bool} {s s' : PML} {j : ℕ} {g : Lock}
    (h : dispatchOnce sync s = some (s', j, g)) :
    s'.waiting - sumQueues s' = s.waiting - sumQueues s := by
  obtain ⟨j0, p, wid, rest, _, hsc, hp, hqe, hout⟩ := dispatchOnce_inv h
  have hj0lt : j0 < s.priorities.length := index_lt hp
  have hsum1 : ((s.priorities.set j0 { p with queue := rest }).map
      (fun p => (p.queue.length : ℤ))).sum = sumQueues s - 1 := by
    simp only [sumQueues]
    rw [sum_map_set _ s.priorities j0 p _ hp]
    simp only [hqe, List.length_cons]
    push_cast
    omega
  cases sync with
  | false =>
    simp only [Bool.false_eq_true, if_false, Prod.mk.injEq] at hout
    rw [hout.1]
    have hp1 : (s.priorities.set j0 { p with queue := rest })[j0]? =
        some { p with queue := rest } := getElem?_set_self _ _ _ hj0lt
    rw [addRunner_eq (p := { p with queue := rest }) hp1]
    show s.waiting - 1 - _ = _
    simp only [sumQueues]
    rw [sum_map_set _ _ j0 { p with queue := rest } _ hp1]
    simp only [sumQueues] at hsum1
    simp only
    omega
  | true =>
    simp only [if_true, Prod.mk.injEq] at hout
    rw [hout.1]
    show s.waiting - 1 - _ = _
    simp only [sumQueues] at hsum1 ⊢
    omega

/-! ## FIFO order of grants -/

theorem grantIdsAt_append_self (i : ℕ) (log : List (ℕ × ℕ)) (w : ℕ) :
    grantIdsAt i (log ++ [(i, w)]) = grantIdsAt i log ++ [w] := by
  simp [grantIdsAt, List.filter_append]

theorem grantIdsAt_append_other {i j : ℕ} (h : j ≠ i) (log : List (ℕ × ℕ)) (w : ℕ) :
    grantIdsAt i (log ++ [(j, w)]) = grantIdsAt i log := by
  simp [grantIdsAt, List.filter_append, h]

theorem qAt_init (c : ℤ) (ws : List ℤ) (i : ℕ) : qAt (init c ws) i = [] := by
  simp only [qAt, init]
  rw [List.getElem?_map]
  cases ws[i]? <;> rfl

theorem fifo_init (c : ℤ) (ws : List ℤ) : Fifo (init c ws) := by
  intro i
  rw [qAt_init]
  constructor
  · simp [grantIdsAt, init]
  · simp [grantIdsAt, init]

theorem qAt_set_queue_eq {s : PML} {i : ℕ} {p : Pri} (p' : Pri)
    (hp : s.priorities[i]? = some p) (hq : p'.queue = p.queue) :
    ∀ (j : ℕ) (l' : List Pri), l' = s.priorities.set i p' →
      ((l'[j]?).map Pri.queue).getD [] = qAt s j := by
  intro j l' hl
  subst hl
  by_cases hij : i = j
  · subst hij
    rw [getElem?_set_self _ _ _ (index_lt hp)]
    simp [qAt, hp, hq]
  · rw [getElem?_set_other _ _ _ _ hij]
    rfl

theorem fifo_lock {s s' : PML} {i : ℕ} {r : LockResult}
    (hf : Fifo s) (h : lock i s = some (r, s')) : Fifo s' := by
  unfold lock at h
  split at h
  · simp only [Option.some.injEq, Prod.mk.injEq] at h
    rw [← h.2]
    exact hf
  · split at h
    · exact absurd h (by simp)
    · rename_i p hp
      split at h
      · split at h
        · -- fast path: queues, log and nextId unchanged
          simp only [Option.some.injEq, Prod.mk.injEq] at h
          have hflat : addRunner
              { s with totalPendingWeights := s.totalPendingWeights + p.weight - p.weight } i =
              { s with totalPendingWeights := s.totalPendingWeights + p.weight - p.weight
                       priorities := s.priorities.set i { p with runners := p.runners + 1 }
                       available := s.available - 1
                       spawned := s.spawned + 1 } := by
            rw [addRunner_eq (s :=
              { s with totalPendingWeights := s.totalPendingWeights + p.weight - p.weight })
              (p := p) hp]
          rw [hflat] at h
          rw [← h.2]
          intro j
          have hq : qAt { s with
              totalPendingWeights := s.totalPendingWeights + p.weight - p.weight
              priorities := s.priorities.set i { p with runners := p.runners + 1 }
              available := s.available - 1
              spawned := s.spawned + 1 } j = qAt s j :=
            qAt_set_queue_eq { p with runners := p.runners + 1 } hp rfl j _ rfl
          rw [show qAt { s with
              totalPendingWeights := s.totalPendingWeights + p.weight - p.weight
              priorities := s.priorities.set i { p with runners := p.runners + 1 }
              available := s.available - 1
              spawned := s.spawned + 1 } j = qAt s j from hq]
          exact hf j
        · -- slow path (activation): waiter appended at the back
          simp only [Option.some.injEq, Prod.mk.injEq] at h
          rw [← h.2]
          intro j
          have hqi : qAt { s with
              totalPendingWeights := s.totalPendingWeights + p.weight
              waitingPriorities := s.waitingPriorities ++ [i]
              priorities := s.priorities.set i { p with queue := p.queue ++ [s.nextId] }
              waiting := s.waiting + 1
              nextId := s.nextId + 1 } i = p.queue ++ [s.nextId] := by
            simp only [qAt]
            rw [getElem?_set_self _ _ _ (index_lt hp)]
            rfl
          by_cases hij : j = i
          · subst hij
            rw [hqi]
            obtain ⟨hpw, hbd⟩ := hf j
            have hqj : qAt s j = p.queue := by simp [qAt, hp]
            rw [hqj] at hpw hbd
            constructor
            · rw [show grantIdsAt j s.grantLog ++ (p.queue ++ [s.nextId]) =
                  (grantIdsAt j s.grantLog ++ p.queue) ++ [s.nextId] from
                (List.append_assoc _ _ _).symm]
              rw [List.pairwise_append]
              refine ⟨hpw, List.pairwise_singleton _ _, ?_⟩
              intro a ha b hb
              simp only [List.mem_singleton] at hb
              subst hb
              exact hbd a ha
            · intro a ha
              rw [show grantIdsAt j s.grantLog ++ (p.queue ++ [s.nextId]) =
                  (grantIdsAt j s.grantLog ++ p.queue) ++ [s.nextId] from
                (List.append_assoc _ _ _).symm] at ha
              rcases List.mem_append.mp ha with ha | ha
              · have := hbd a ha
                simp only
                omega
              · simp only [List.mem_singleton] at ha
                subst ha
                simp only
                omega
          · have hqj : qAt { s with
                totalPendingWeights := s.totalPendingWeights + p.weight
                waitingPriorities := s.waitingPriorities ++ [i]
                priorities := s.priorities.set i { p with queue := p.queue ++ [s.nextId] }
                waiting := s.waiting + 1
                nextId := s.nextId + 1 } j = qAt s j := by
              simp only [qAt]
              rw [getElem?_set_other _ _ _ _ (fun e => hij e.symm)]
            rw [hqj]
            obtain ⟨hpw, hbd⟩ := hf j
            refine ⟨hpw, ?_⟩
            intro a ha
            have := hbd a ha
            simp only
            omega
      · -- non-empty queue: waiter appended at the back
        rename_i hq0
        simp only [Option.some.injEq, Prod.mk.injEq] at h
        rw [← h.2]
        intro j
        have hqi : qAt { s with
            priorities := s.priorities.set i { p with queue := p.queue ++ [s.nextId] }
            waiting := s.waiting + 1
            nextId := s.nextId + 1 } i = p.queue ++ [s.nextId] := by
          simp only [qAt]
          rw [getElem?_set_self _ _ _ (index_lt hp)]
          rfl
        by_cases hij : j = i
        · subst hij
          rw [hqi]
          obtain ⟨hpw, hbd⟩ := hf j
          have hqj : qAt s j = p.queue := by simp [qAt, hp]
          rw [hqj] at hpw hbd
          constructor
          · rw [show grantIdsAt j s.grantLog ++ (p.queue ++ [s.nextId]) =
                (grantIdsAt j s.grantLog ++ p.queue) ++ [s.nextId] from
              (List.append_assoc _ _ _).symm]
            rw [List.pairwise_append]
            refine ⟨hpw, List.pairwise_singleton _ _, ?_⟩
            intro a ha b hb
            simp only [List.mem_singleton] at hb
            subst hb
            exact hbd a ha
          · intro a ha
            rw [show grantIdsAt j s.grantLog ++ (p.queue ++ [s.nextId]) =
                (grantIdsAt j s.grantLog ++ p.queue) ++ [s.nextId] from
              (List.append_assoc _ _ _).symm] at ha
            rcases List.mem_append.mp ha with ha | ha
            · have := hbd a ha
              simp only
              omega
            · simp only [List.mem_singleton] at ha
              subst ha
              simp only
              omega
        · have hqj : qAt { s with
              priorities := s.priorities.set i { p with queue := p.queue ++ [s.nextId] }
              waiting := s.waiting + 1
              nextId := s.nextId + 1 } j = qAt s j := by
            simp only [qAt]
            rw [getElem?_set_other _ _ _ _ (fun e => hij e.symm)]
          rw [hqj]
          obtain ⟨hpw, hbd⟩ := hf j
          refine ⟨hpw, ?_⟩
          intro a ha
          have := hbd a ha
          simp only
          omega

theorem fifo_handleRelease (s : PML) (i : ℕ) (hf : Fifo s) :
    Fifo (handleRelease s i) := by
  intro j
  have hq : qAt (handleRelease s i) j = qAt s j := by
    unfold handleRelease
    split
    · rfl
    · rename_i p hp
      simp only [qAt]
      by_cases hij : i = j
      · subst hij
        rw [getElem?_set_self _ _ _ (index_lt hp)]
        simp [hp]
      · rw [getElem?_set_other _ _ _ _ hij]
  have hlog : (handleRelease s i).grantLog = s.grantLog := by
    unfold handleRelease
    split <;> rfl
  have hnext : (handleRelease s i).nextId = s.nextId := by
    unfold handleRelease
    split <;> rfl
  rw [hq, hlog, hnext]
  exact hf j

theorem fifo_dispatch {sync : Bool} {s s' : PML} {j : ℕ} {g : Lock}
    (hf : Fifo s) (h : dispatchOnce sync s = some (s', j, g)) : Fifo s' := by
  obtain ⟨j0, p, wid, rest, _, hsc, hp, hqe, hout⟩ := dispatchOnce_inv h
  have hj0lt : j0 < s.priorities.length := index_lt hp
  have key : ∀ (t : PML), t.grantLog = s.grantLog ++ [(j0, wid)] → t.nextId = s.nextId →
      (∀ j' : ℕ, qAt t j' = if j' = j0 then rest else qAt s j') → Fifo t := by
    intro t hlog hnext hq j'
    rw [hlog, hnext, hq j']
    by_cases hjj : j' = j0
    · subst hjj
      rw [if_pos rfl, grantIdsAt_append_self]
      obtain ⟨hpw, hbd⟩ := hf j'
      have hqj : qAt s j' = wid :: rest := by simp [qAt, hp, hqe]
      rw [hqj] at hpw hbd
      have hre : grantIdsAt j' s.grantLog ++ [wid] ++ rest =
          grantIdsAt j' s.grantLog ++ (wid :: rest) := by
        rw [List.append_assoc]
        rfl
      rw [hre]
      exact ⟨hpw, hbd⟩
    · rw [if_neg hjj, grantIdsAt_append_other (fun e => hjj e.symm)]
      exact hf j'
  have hq1 : ∀ j' : ℕ, ((( s.priorities.set j0 { p with queue := rest })[j']?).map
      Pri.queue).getD [] = if j' = j0 then rest else qAt s j' := by
    intro j'
    by_cases hjj : j' = j0
    · subst hjj
      rw [if_pos rfl, getElem?_set_self _ _ _ hj0lt]
      rfl
    · rw [if_neg hjj, getElem?_set_other _ _ _ _ (fun e => hjj e.symm)]
      rfl
  cases sync with
  | false =>
    simp only [Bool.false_eq_true, if_false, Prod.mk.injEq] at hout
    obtain ⟨h1, h2, h3⟩ := hout
    rw [h1]
    have hp1 : (s.priorities.set j0 { p with queue := rest })[j0]? =
        some { p with queue := rest } := getElem?_set_self _ _ _ hj0lt
    rw [addRunner_eq (p := { p with queue := rest }) hp1]
    apply key
    · rfl
    · rfl
    · intro j'
      simp only [qAt]
      by_cases hjj : j' = j0
      · subst hjj
        rw [if_pos rfl]
        have hlen2 : j' < (s.priorities.set j' { p with queue := rest }).length := by
          simpa using hj0lt
        rw [getElem?_set_self _ _ _ hlen2]
        rfl
      · rw [if_neg hjj, getElem?_set_other _ _ _ _ (fun e => hjj e.symm)]
        have h4 := hq1 j'
        rw [if_neg hjj] at h4
        exact h4
  | true =>
    simp only [if_true, Prod.mk.injEq] at hout
    obtain ⟨h1, h2, h3⟩ := hout
    rw [h1]
    apply key
    · rfl
    · rfl
    · intro j'
      show (((s.priorities.set j0 { p with queue := rest })[j']?).map Pri.queue).getD [] =
        if j' = j0 then rest else qAt s j'
      exact hq1 j'

theorem fifo_halt (s : PML) (hf : Fifo s) : Fifo (halt s) := hf

theorem fifo_kill (s : PML) (hf : Fifo s) : Fifo (kill s) := by
  unfold kill
  split
  · exact hf
  · intro j
    have hq : qAt { halt { s with killed := true } with
        priorities := s.priorities.map fun p => { p with queue := [] }
        errored := s.errored ++ queuedIds s } j = [] := by
      simp only [qAt]
      rw [List.getElem?_map]
      cases s.priorities[j]? <;> rfl
    rw [show qAt { halt { s with killed := true } with
        priorities := s.priorities.map fun p => { p with queue := [] }
        errored := s.errored ++ queuedIds s } j = [] from hq]
    obtain ⟨hpw, hbd⟩ := hf j
    rw [List.append_nil]
    constructor
    · exact hpw.sublist (List.sublist_append_left _ _)
    · intro a ha
      exact hbd a (List.mem_append.mpr (Or.inl ha))

theorem fifo_step {s s' : PML} (hf : Fifo s) (st : Step s s') : Fifo s' := by
  cases st with
  | lockStep hl => exact fifo_lock hf hl
  | releaseStep hlt hr => exact fifo_handleRelease _ _ hf
  | dispatchStep hd => exact fifo_dispatch hf hd
  | haltStep => exact fifo_halt _ hf
  | killStep => exact fifo_kill _ hf

theorem reach_fifo {c : ℤ} {ws : List ℤ} {s : PML}
    (h : Reach (init c ws) s) : Fifo s := by
  induction h with
  | refl => exact fifo_init c ws
  | tail _ st ih => exact fifo_step ih st

/-! ## Claim theorems -/

/-- C1: for every Grant, calling `release()` a second time after the Grant
is already resolved (by an earlier `release()` or by the holder going out
of scope) is a no-op: it does not error, does not change `available`, and
does not decrement the priority's runner count a second time. -/
theorem C1_release_idempotent (s : PML) (i : ℕ) (g : Lock) :
    releaseGrant (releaseGrant s i g).1 i (releaseGrant s i g).2 = releaseGrant s i g ∧
    (releaseGrant (releaseGrant s i g).1 i (releaseGrant s i g).2).1.available =
      (releaseGrant s i g).1.available ∧
    (∀ j : ℕ, runnersAt (releaseGrant (releaseGrant s i g).1 i (releaseGrant s i g).2).1 j =
      runnersAt (releaseGrant s i g).1 j) := by
  have key : releaseGrant (releaseGrant s i g).1 i (releaseGrant s i g).2 =
      releaseGrant s i g := by
    unfold releaseGrant Lock.release
    cases g with
    | mk r => cases r <;> simp
  exact ⟨key, by rw [key], fun j => by rw [key]⟩

/-- C2 counterexample: on the fast path the tentative weight addition IS
subtracted back (line 120 of the source): after `lock 0` on `init 1 [1]`
grants synchronously, `totalPendingWeights` is 0 again, not the prior
value plus the priority's weight as the claim asserts. -/
theorem C2_counterexample :
    lock 0 (init 1 [1]) = some (.granted ⟨false⟩, exFast) ∧
    wAt (init 1 [1]) 0 = 1 ∧
    exFast.totalPendingWeights = 0 ∧
    ¬ exFast.totalPendingWeights =
        (init 1 [1]).totalPendingWeights + wAt (init 1 [1]) 0 := by decide

/-- C2 amended: on the fast path of `lock(priority)` the priority's
weight, tentatively added to `activeWeightSum`, is subtracted back when
the grant is issued immediately: after the synchronous grant returns,
`activeWeightSum` equals its value before the call (and one slot was
consumed). -/
theorem C2_fast_path_weight {s s' : PML} {i : ℕ} {g : Lock}
    (h : lock i s = some (.granted g, s')) :
    s'.totalPendingWeights = s.totalPendingWeights ∧
    s'.available = s.available - 1 := by
  unfold lock at h
  split at h
  · simp at h
  · split at h
    · exact absurd h (by simp)
    · rename_i p hp
      split at h
      · split at h
        · simp only [Option.some.injEq, Prod.mk.injEq] at h
          have hflat : addRunner
              { s with totalPendingWeights := s.totalPendingWeights + p.weight - p.weight } i =
              { s with totalPendingWeights := s.totalPendingWeights + p.weight - p.weight
                       priorities := s.priorities.set i { p with runners := p.runners + 1 }
                       available := s.available - 1
                       spawned := s.spawned + 1 } := by
            rw [addRunner_eq (s :=
              { s with totalPendingWeights := s.totalPendingWeights + p.weight - p.weight })
              (p := p) hp]
          rw [hflat] at h
          rw [← h.2]
          constructor
          · show s.totalPendingWeights + p.weight - p.weight = _
            ring
          · rfl
        · simp at h
      · simp at h

theorem C2_fast_path_weight_witness :
    lock 0 (init 1 [1]) = some (.granted ⟨false⟩, exFast) ∧
    exFast.totalPendingWeights = (init 1 [1]).totalPendingWeights ∧
    exFast.available = (init 1 [1]).available - 1 :=
  ⟨by decide, C2_fast_path_weight
    (show lock 0 (init 1 [1]) = some (.granted ⟨false⟩, exFast) by decide)⟩

/-- C3: after `kill()` every waiter queued at kill time resolves with the
broken-promise error, every subsequent `lock` fails immediately with that
error without producing a grant or enqueuing a waiter, `kill` is
idempotent, and the `killed` flag is set before halting and clearing (so a
`lock` issued once the flag alone is set already fails). -/
theorem C3_kill_drains (s : PML) (i : ℕ) (hk : s.killed = false) :
    (kill s).errored = s.errored ++ queuedIds s ∧
    (∀ p ∈ (kill s).priorities, p.queue = []) ∧
    (kill s).killed = true ∧
    lock i (kill s) = some (.broken, kill s) ∧
    kill (kill s) = kill s ∧
    lock i { s with killed := true } = some (.broken, { s with killed := true }) := by
  refine ⟨?_, ?_, kill_killed s, ?_, kill_of_killed (kill_killed s), ?_⟩
  · unfold kill
    simp [hk]
  · intro p hp
    unfold kill at hp
    simp only [hk, Bool.false_eq_true, if_false] at hp
    simp only [List.mem_map] at hp
    obtain ⟨q, _, rfl⟩ := hp
    rfl
  · unfold lock
    simp [kill_killed s]
  · unfold lock
    simp

theorem C3_kill_drains_witness :
    exQueued.killed = false ∧
    ((kill exQueued).errored = exQueued.errored ++ queuedIds exQueued ∧
     (∀ p ∈ (kill exQueued).priorities, p.queue = []) ∧
     (kill exQueued).killed = true ∧
     lock 0 (kill exQueued) = some (.broken, kill exQueued) ∧
     kill (kill exQueued) = kill exQueued ∧
     lock 0 { exQueued with killed := true } =
       some (.broken, { exQueued with killed := true })) :=
  ⟨by decide, C3_kill_drains exQueued 0 (by decide)⟩

/-- C4: while the lock is not halted (in particular not killed), every
reachable quiescent state satisfies `available + Σ activeRunners =
concurrency`; moreover the equation is preserved by any `lock` call (in
particular the fast path), by every grant made in the dispatch loop, and
by every release handled by the release handler. -/
theorem C4_capacity_conservation {c : ℤ} {ws : List ℤ} {s : PML}
    (hc : 0 ≤ c) (hws : ∀ w ∈ ws, 1 ≤ w)
    (hreach : Reach (init c ws) s) (hh : s.halted = false) :
    s.available + sumRunners s = s.concurrency ∧
    (∀ (s1 s2 : PML) (i : ℕ) (r : LockResult), lock i s1 = some (r, s2) →
      s1.available + sumRunners s1 = s1.concurrency →
      s2.available + sumRunners s2 = s2.concurrency) ∧
    (∀ (s1 s2 : PML) (sync : Bool) (j : ℕ) (g : Lock),
      dispatchOnce sync s1 = some (s2, j, g) →
      s1.available + sumRunners s1 = s1.concurrency →
      s2.available + sumRunners s2 = s2.concurrency) ∧
    (∀ (s1 : PML) (i : ℕ), i < s1.priorities.length →
      s1.available + sumRunners s1 = s1.concurrency →
      (handleRelease s1 i).available + sumRunners (handleRelease s1 i) =
        (handleRelease s1 i).concurrency) := by
  refine ⟨(reach_invH hc hws hreach hh).slots, ?_, ?_, ?_⟩
  · intro s1 s2 i r h h1
    have := lock_slots h
    omega
  · intro s1 s2 sync j g h h1
    have := dispatch_slots h
    omega
  · intro s1 i hi h1
    have := handleRelease_slots s1 i hi
    omega

theorem C4_capacity_conservation_witness :
    ((0 : ℤ) ≤ 2 ∧ (∀ w ∈ ([1, 1] : List ℤ), 1 ≤ w) ∧ (init 2 [1, 1]).halted = false) ∧
    (init 2 [1, 1]).available + sumRunners (init 2 [1, 1]) = (init 2 [1, 1]).concurrency :=
  ⟨⟨by decide, by decide, by decide⟩,
    (C4_capacity_conservation (by decide) (by decide) Relation.ReflTransGen.refl
      (by decide)).1⟩

/-- C6 counterexample: `kill` clears every queue but does not reset
`waiting`, so after killing a state with one queued waiter the counter
is 1 while the queues are empty — `kill` does not preserve the equation
`waitingTotal = Σ |queue[p]|`. -/
theorem C6_counterexample :
    lock 0 exFast = some (.queued 0, exQueued) ∧
    exQueued.waiting = sumQueues exQueued ∧
    (kill exQueued).waiting = 1 ∧
    sumQueues (kill exQueued) = 0 ∧
    ¬ (kill exQueued).waiting = sumQueues (kill exQueued) := by decide

/-- C6 amended: the equation `waitingTotal = Σ |queue[p]|` is preserved by
`lock()`, by the dispatch loop, by `halt()`, and by every release; `kill`
however clears the queues without resetting `waitingTotal`. -/
theorem C6_waiting_total (s : PML) (h : s.waiting = sumQueues s) :
    (∀ (i : ℕ) (r : LockResult) (s' : PML), lock i s = some (r, s') →
      s'.waiting = sumQueues s') ∧
    (∀ (sync : Bool) (s' : PML) (j : ℕ) (g : Lock),
      dispatchOnce sync s = some (s', j, g) → s'.waiting = sumQueues s') ∧
    (halt s).waiting = sumQueues (halt s) ∧
    (∀ i : ℕ, (handleRelease s i).waiting = sumQueues (handleRelease s i)) := by
  refine ⟨?_, ?_, ?_, ?_⟩
  · intro i r s' hl
    have := lock_waitq hl
    omega
  · intro sync s' j g hd
    have := dispatch_waitq hd
    omega
  · have := halt_waitq s
    omega
  · intro i
    have := handleRelease_waitq s i
    omega

theorem C6_waiting_total_witness :
    exQueued.waiting = sumQueues exQueued ∧
    (halt exQueued).waiting = sumQueues (halt exQueued) :=
  ⟨by decide, (C6_waiting_total exQueued (by decide)).2.2.1⟩

/-- C9: when the dispatch loop resolves a waiter's signal with a grant, it
performs slot bookkeeping (`available` decremented, that priority's
runner count incremented, a release handler spawned) exactly when the
grant is still unresolved after the resolution call returns; if the
waiter's continuation already released the grant synchronously, no slot
is attributed. -/
theorem C9_dispatch_bookkeeping {sync : Bool} {s s' : PML} {j : ℕ} {g : Lock}
    (h : dispatchOnce sync s = some (s', j, g)) :
    (g.resolved = false ↔
      s'.available = s.available - 1 ∧ runnersAt s' j = runnersAt s j + 1 ∧
      s'.spawned = s.spawned + 1) ∧
    (g.resolved = true →
      s'.available = s.available ∧ runnersAt s' j = runnersAt s j ∧
      s'.spawned = s.spawned) := by
  obtain ⟨j0, p, wid, rest, _, hsc, hp, hqe, hout⟩ := dispatchOnce_inv h
  have hj0lt : j0 < s.priorities.length := index_lt hp
  have hrs : runnersAt s j0 = p.runners := by simp [runnersAt, hp]
  cases sync with
  | false =>
    simp only [Bool.false_eq_true, if_false, Prod.mk.injEq] at hout
    obtain ⟨h1, h2, h3⟩ := hout
    subst h2
    subst h3
    rw [h1]
    have hp1 : (s.priorities.set j { p with queue := rest })[j]? =
        some { p with queue := rest } := getElem?_set_self _ _ _ hj0lt
    rw [addRunner_eq (p := { p with queue := rest }) hp1]
    constructor
    · constructor
      · intro _
        refine ⟨rfl, ?_, rfl⟩
        rw [hrs]
        simp only [runnersAt]
        have hlen2 : j < (s.priorities.set j { p with queue := rest }).length := by
          simpa using hj0lt
        rw [getElem?_set_self _ _ _ hlen2]
        rfl
      · intro _
        rfl
    · intro hc
      simp at hc
  | true =>
    simp only [if_true, Prod.mk.injEq] at hout
    obtain ⟨h1, h2, h3⟩ := hout
    subst h2
    subst h3
    rw [h1]
    have hr1 : runnersAt { s with
        priorities := s.priorities.set j { p with queue := rest }
        cursor := s.waitingPriorities.indexOf j
        waitingPriorities :=
          if rest = [] then s.waitingPriorities.erase j else s.waitingPriorities
        totalPendingWeights :=
          if rest = [] then s.totalPendingWeights - p.weight else s.totalPendingWeights
        waiting := s.waiting - 1
        grantLog := s.grantLog ++ [(j, wid)] } j = p.runners := by
      simp only [runnersAt]
      rw [show (s.priorities.set j { p with queue := rest })[j]? =
          some { p with queue := rest } from getElem?_set_self _ _ _ hj0lt]
      rfl
    constructor
    · constructor
      · intro hc
        simp at hc
      · intro hcon
        exfalso
        have := hcon.1
        simp only at this
        omega
    · intro _
      exact ⟨rfl, by rw [hr1, hrs], rfl⟩

theorem C9_dispatch_bookkeeping_witness :
    dispatchOnce false exReady = some (exReadyAfter, 0, ⟨false⟩) ∧
    (((⟨false⟩ : Lock).resolved = false ↔
      exReadyAfter.available = exReady.available - 1 ∧
      runnersAt exReadyAfter 0 = runnersAt exReady 0 + 1 ∧
      exReadyAfter.spawned = exReady.spawned + 1) ∧
    ((⟨false⟩ : Lock).resolved = true →
      exReadyAfter.available = exReady.available ∧
      runnersAt exReadyAfter 0 = runnersAt exReady 0 ∧
      exReadyAfter.spawned = exReady.spawned)) :=
  ⟨by decide, C9_dispatch_bookkeeping
    (show dispatchOnce false exReady = some (exReadyAfter, 0, ⟨false⟩) by decide)⟩

/-- C10: `lock(priority)` performs unchecked indexing into the priorities
vector: when not killed, exactly the indices outside `[0, N)` lead to the
out-of-bounds read (the undefined behaviour modelled by `none`), so the
precondition `priority < N` is required for `lock` to be safe; the
per-priority introspection getters instead stop on a failed `ASSERT` for
exactly those indices. -/
theorem C10_lock_unchecked (s : PML) (i : ℕ) (hk : s.killed = false) :
    (lock i s = none ↔ s.priorities.length ≤ i) ∧
    (getWaitersCount i s = none ↔ s.priorities.length ≤ i) ∧
    (getRunnersCountAt i s = none ↔ s.priorities.length ≤ i) := by
  refine ⟨?_, ?_, ?_⟩
  · unfold lock
    simp only [hk, Bool.false_eq_true, if_false]
    constructor
    · intro h
      by_contra hlt
      push_neg at hlt
      rw [List.getElem?_eq_getElem hlt] at h
      split at h
      · rename_i heq
        simp at heq
      · split at h
        · split at h
          · exact absurd h (by simp)
          · exact absurd h (by simp)
        · exact absurd h (by simp)
    · intro h
      rw [List.getElem?_eq_none h]
  · unfold getWaitersCount
    cases hp : s.priorities[i]? with
    | none =>
      simp only [hp]
      exact ⟨fun _ => List.getElem?_eq_none_iff.mp hp, fun _ => trivial⟩
    | some p =>
      simp only [hp]
      constructor
      · intro hc
        exact absurd hc (by simp)
      · intro hlen
        exact absurd (List.getElem?_eq_none hlen) (by simp [hp])
  · unfold getRunnersCountAt
    cases hp : s.priorities[i]? with
    | none =>
      simp only [hp]
      exact ⟨fun _ => List.getElem?_eq_none_iff.mp hp, fun _ => trivial⟩
    | some p =>
      simp only [hp]
      constructor
      · intro hc
        exact absurd hc (by simp)
      · intro hlen
        exact absurd (List.getElem?_eq_none hlen) (by simp [hp])

theorem C10_lock_unchecked_witness :
    (init 1 [1]).killed = false ∧
    ((lock 5 (init 1 [1]) = none ↔ (init 1 [1]).priorities.length ≤ 5) ∧
     (getWaitersCount 5 (init 1 [1]) = none ↔ (init 1 [1]).priorities.length ≤ 5) ∧
     (getRunnersCountAt 5 (init 1 [1]) = none ↔ (init 1 [1]).priorities.length ≤ 5)) :=
  ⟨by decide, C10_lock_unchecked (init 1 [1]) 5 (by decide)⟩

/-- C8: for every priority, grants are issued to that priority's waiters
in exactly the order in which the waiters were enqueued: in every
reachable state the grant log per priority is strictly increasing in
arrival stamps; the dispatch loop always pops the earliest waiter (the
queue front) of the selected priority, and `lock` always appends new
waiters at the back. -/
theorem C8_fifo_per_priority {c : ℤ} {ws : List ℤ} {s : PML}
    (hreach : Reach (init c ws) s) :
    (∀ i : ℕ, List.Pairwise (· < ·) (grantIdsAt i s.grantLog)) ∧
    (∀ (s1 s2 : PML) (sync : Bool) (j : ℕ) (g : Lock),
      dispatchOnce sync s1 = some (s2, j, g) →
      s2.grantLog = s1.grantLog ++ [(j, (qAt s1 j).headI)] ∧
      qAt s2 j = (qAt s1 j).tail) ∧
    (∀ (s1 s2 : PML) (i n : ℕ), lock i s1 = some (.queued n, s2) →
      qAt s2 i = qAt s1 i ++ [n]) := by
  refine ⟨?_, ?_, ?_⟩
  · intro i
    exact ((reach_fifo hreach i).1).sublist (List.sublist_append_left _ _)
  · intro s1 s2 sync j g h
    obtain ⟨j0, p, wid, rest, _, hsc, hp, hqe, hout⟩ := dispatchOnce_inv h
    have hj0lt : j0 < s1.priorities.length := index_lt hp
    have hq1 : qAt s1 j0 = wid :: rest := by simp [qAt, hp, hqe]
    cases sync with
    | false =>
      simp only [Bool.false_eq_true, if_false, Prod.mk.injEq] at hout
      obtain ⟨h1, h2, h3⟩ := hout
      subst h2
      rw [h1]
      have hp1 : (s1.priorities.set j { p with queue := rest })[j]? =
          some { p with queue := rest } := getElem?_set_self _ _ _ hj0lt
      rw [addRunner_eq (p := { p with queue := rest }) hp1]
      constructor
      · rw [hq1]
        rfl
      · rw [hq1]
        simp only [qAt, List.tail_cons]
        have hlen2 : j < (s1.priorities.set j { p with queue := rest }).length := by
          simpa using hj0lt
        rw [getElem?_set_self _ _ _ hlen2]
        rfl
    | true =>
      simp only [if_true, Prod.mk.injEq] at hout
      obtain ⟨h1, h2, h3⟩ := hout
      subst h2
      rw [h1]
      constructor
      · rw [hq1]
        rfl
      · rw [hq1]
        simp only [qAt, List.tail_cons]
        rw [getElem?_set_self _ _ _ hj0lt]
        rfl
  · intro s1 s2 i n h
    unfold lock at h
    split at h
    · simp at h
    · split at h
      · exact absurd h (by simp)
      · rename_i p hp
        split at h
        · split at h
          · simp at h
          · simp only [Option.some.injEq, Prod.mk.injEq, LockResult.queued.injEq] at h
            obtain ⟨hn, hs2⟩ := h
            rw [← hs2]
            simp only [qAt]
            rw [getElem?_set_self _ _ _ (index_lt hp)]
            simp [hp, hn]
        · simp only [Option.some.injEq, Prod.mk.injEq, LockResult.queued.injEq] at h
          obtain ⟨hn, hs2⟩ := h
          rw [← hs2]
          simp only [qAt]
          rw [getElem?_set_self _ _ _ (index_lt hp)]
          simp [hp, hn]

theorem C8_fifo_per_priority_witness :
    List.Pairwise (· < ·) (grantIdsAt 0 (init 2 [1, 1]).grantLog) ∧
    (exReadyAfter.grantLog = exReady.grantLog ++ [(0, (qAt exReady 0).headI)] ∧
     qAt exReadyAfter 0 = (qAt exReady 0).tail) :=
  ⟨(C8_fifo_per_priority (show Reach (init 2 [1, 1]) (init 2 [1, 1]) from
      Relation.ReflTransGen.refl)).1 0,
   (C8_fifo_per_priority (show Reach (init 2 [1, 1]) (init 2 [1, 1]) from
      Relation.ReflTransGen.refl)).2.1
     exReady exReadyAfter false 0 ⟨false⟩ (by decide)⟩

/-! ## Valuation lemmas for the binary32 model -/

theorem Frac.val_ofInt (z : ℤ) : (Frac.ofInt z).val = (z : ℚ) := by
  simp [Frac.val, Frac.ofInt]

theorem Frac.val_mul {x y : Frac} (hx : x.d ≠ 0) (hy : y.d ≠ 0) :
    (Frac.mul x y).val = x.val * y.val := by
  simp only [Frac.val, Frac.mul]
  push_cast
  field_simp

theorem Frac.val_div {x y : Frac} (hx : x.d ≠ 0) (hyn : y.n ≠ 0) (hyd : y.d ≠ 0) :
    (Frac.div x y).val = x.val / y.val := by
  have hx' : (x.d : ℚ) ≠ 0 := by exact_mod_cast hx
  have hyn' : (y.n : ℚ) ≠ 0 := by exact_mod_cast hyn
  have hyd' : (y.d : ℚ) ≠ 0 := by exact_mod_cast hyd
  simp only [Frac.val, Frac.div]
  push_cast
  field_simp

theorem Frac.val_pow2 (e : ℤ) : (Frac.pow2 e).val = (2 : ℚ) ^ e := by
  unfold Frac.pow2
  split
  · rename_i h
    simp only [Frac.val]
    push_cast
    rw [div_one, ← zpow_natCast]
    congr 1
    omega
  · rename_i h
    simp only [Frac.val]
    push_cast
    rw [one_div, ← zpow_natCast, ← zpow_neg]
    congr 1
    omega

theorem Frac.pow2_d_pos (e : ℤ) : 0 < (Frac.pow2 e).d := by
  unfold Frac.pow2
  split <;> positivity

theorem Frac.pow2_n_pos (e : ℤ) : 0 < (Frac.pow2 e).n := by
  unfold Frac.pow2
  split <;> positivity

theorem Frac.val_pos {x : Frac} (hn : 0 < x.n) (hd : 0 < x.d) : 0 < x.val := by
  simp only [Frac.val]
  positivity

theorem Frac.n_pos_of_val_pos {x : Frac} (hd : 0 < x.d) (hv : 0 < x.val) : 0 < x.n := by
  by_contra hn
  push_neg at hn
  have : x.val ≤ 0 := by
    simp only [Frac.val]
    apply div_nonpos_of_nonpos_of_nonneg
    · exact_mod_cast hn
    · exact_mod_cast hd.le
  linarith

theorem Frac.val_le_val {x y : Frac} (hdx : 0 < x.d) (hdy : 0 < y.d) :
    x.val ≤ y.val ↔ x.n * y.d ≤ y.n * x.d := by
  simp only [Frac.val]
  rw [div_le_div_iff (by exact_mod_cast hdx) (by exact_mod_cast hdy)]
  exact_mod_cast Iff.rfl

theorem Frac.val_lt_val {x y : Frac} (hdx : 0 < x.d) (hdy : 0 < y.d) :
    x.val < y.val ↔ x.n * y.d < y.n * x.d := by
  simp only [Frac.val]
  rw [div_lt_div_iff (by exact_mod_cast hdx) (by exact_mod_cast hdy)]
  exact_mod_cast Iff.rfl

/-- Round-to-nearest error of `rneF` is at most one half. -/
theorem rneF_err {x : Frac} (hd : 0 < x.d) : |((rneF x : ℤ) : ℚ) - x.val| ≤ 1 / 2 := by
  have hq := Int.fdiv_add_fmod x.n x.d
  have hr0 : 0 ≤ x.n.fmod x.d := Int.fmod_nonneg' x.n hd
  have hrlt : x.n.fmod x.d < x.d := Int.fmod_lt_of_pos x.n hd
  have hrw : x.n - x.n.fdiv x.d * x.d = x.n.fmod x.d := by
    have hcomm : x.d * x.n.fdiv x.d = x.n.fdiv x.d * x.d := mul_comm _ _
    linarith [hq]
  have hdq : (x.d : ℚ) ≠ 0 := by
    have := hd.ne'
    exact_mod_cast this
  have hcast : (x.d : ℚ) * ((x.n.fdiv x.d : ℤ) : ℚ) + ((x.n.fmod x.d : ℤ) : ℚ) = (x.n : ℚ) := by
    exact_mod_cast hq
  have hvq : x.val - ((x.n.fdiv x.d : ℤ) : ℚ) = ((x.n.fmod x.d : ℤ) : ℚ) / (x.d : ℚ) := by
    rw [Frac.val, eq_div_iff hdq, sub_mul, div_mul_cancel₀ _ hdq]
    linarith [hcast]
  have hfr0 : (0 : ℚ) ≤ ((x.n.fmod x.d : ℤ) : ℚ) / (x.d : ℚ) := by
    apply div_nonneg
    · exact_mod_cast hr0
    · exact_mod_cast hd.le
  have hfr1 : ((x.n.fmod x.d : ℤ) : ℚ) / (x.d : ℚ) < 1 := by
    rw [div_lt_one (by exact_mod_cast hd)]
    exact_mod_cast hrlt
  unfold rneF
  rw [hrw]
  split
  · rename_i hlt
    have hhalf : ((x.n.fmod x.d : ℤ) : ℚ) / (x.d : ℚ) < 1 / 2 := by
      rw [div_lt_div_iff (by exact_mod_cast hd) (by norm_num)]
      have : (2 : ℚ) * ((x.n.fmod x.d : ℤ) : ℚ) < (x.d : ℚ) := by exact_mod_cast hlt
      linarith
    rw [abs_sub_comm, abs_of_nonneg (by linarith [hvq, hfr0])]
    linarith [hvq]
  · split
    · rename_i hlt hgt
      have hhalf : (1 : ℚ) / 2 < ((x.n.fmod x.d : ℤ) : ℚ) / (x.d : ℚ) := by
        rw [div_lt_div_iff (by norm_num) (by exact_mod_cast hd)]
        have : (x.d : ℚ) < 2 * ((x.n.fmod x.d : ℤ) : ℚ) := by exact_mod_cast hgt
        linarith
      have hup : ((x.n.fdiv x.d + 1 : ℤ) : ℚ) - x.val =
          1 - ((x.n.fmod x.d : ℤ) : ℚ) / (x.d : ℚ) := by
        push_cast
        push_cast at hvq
        linarith [hvq]
      rw [abs_of_nonneg (by rw [hup]; linarith [hfr1])]
      rw [hup]
      linarith
    · rename_i hlt hgt
      have htie : ((x.n.fmod x.d : ℤ) : ℚ) / (x.d : ℚ) = 1 / 2 := by
        have h1 : 2 * x.n.fmod x.d = x.d := by omega
        rw [div_eq_div_iff hdq (by norm_num)]
        have : (2 : ℚ) * ((x.n.fmod x.d : ℤ) : ℚ) = (x.d : ℚ) := by exact_mod_cast h1
        linarith
      split
      · rw [abs_sub_comm, abs_of_nonneg (by linarith [hvq, hfr0])]
        linarith [hvq]
      · have hup : ((x.n.fdiv x.d + 1 : ℤ) : ℚ) - x.val =
            1 - ((x.n.fmod x.d : ℤ) : ℚ) / (x.d : ℚ) := by
          push_cast
          push_cast at hvq
          linarith [hvq]
        rw [abs_of_nonneg (by rw [hup]; linarith [hfr1])]
        rw [hup]
        linarith

theorem findExp_spec (f : ℕ) (x : Frac) (h1 : x.d ≤ x.n)
    (hub : x.n < 2 ^ (f + 1) * x.d) :
    2 ^ findExp f x * x.d ≤ x.n ∧ x.n < 2 ^ (findExp f x + 1) * x.d := by
  induction f with
  | zero =>
    unfold findExp
    constructor
    · simpa using h1
    · simpa using hub
  | succ f ih =>
    unfold findExp
    split
    · rename_i hle
      exact ⟨hle, hub⟩
    · rename_i hgt
      push_neg at hgt
      exact ih hgt

theorem exp2floorPos_spec (x : Frac) (hn : 0 < x.n) (hd : 0 < x.d)
    (hub : x.n < 2 ^ 127 * x.d) (hlb : x.d < 2 ^ 127 * x.n) :
    (2 : ℚ) ^ exp2floorPos x ≤ x.val ∧ x.val < (2 : ℚ) ^ (exp2floorPos x + 1) := by
  have hdq : (0 : ℚ) < (x.d : ℚ) := by exact_mod_cast hd
  unfold exp2floorPos
  split
  · rename_i hge
    obtain ⟨hl, hu⟩ := findExp_spec 126 x hge hub
    constructor
    · rw [Frac.val, le_div_iff hdq, zpow_natCast]
      have : ((2 : ℤ) ^ findExp 126 x * x.d : ℤ) ≤ x.n := hl
      exact_mod_cast this
    · rw [Frac.val, div_lt_iff hdq]
      have h2 : ((findExp 126 x : ℤ) + 1) = ((findExp 126 x + 1 : ℕ) : ℤ) := by push_cast; ring
      rw [h2, zpow_natCast]
      have : (x.n : ℤ) < 2 ^ (findExp 126 x + 1) * x.d := hu
      have hc : (x.n : ℚ) < 2 ^ (findExp 126 x + 1) * (x.d : ℚ) := by exact_mod_cast this
      linarith
  · rename_i hlt
    push_neg at hlt
    obtain ⟨hl, hu⟩ := findExp_spec 126 ⟨x.d, x.n⟩ hlt.le hlb
    simp only at hl hu
    have hpow : (0 : ℚ) < 2 ^ findExp 126 ⟨x.d, x.n⟩ := by positivity
    split
    · rename_i hcond
      constructor
      · rw [Frac.val, le_div_iff hdq, zpow_neg, zpow_natCast]
        rw [inv_mul_le_iff hpow]
        have : (x.d : ℚ) ≤ (x.n : ℚ) * 2 ^ findExp 126 ⟨x.d, x.n⟩ := by exact_mod_cast hcond
        linarith
      · rw [Frac.val, div_lt_iff hdq]
        have h2 : (-(findExp 126 ⟨x.d, x.n⟩ : ℤ) + 1) =
            -((findExp 126 ⟨x.d, x.n⟩ : ℤ) - 1) := by ring
        rw [h2, zpow_neg]
        rw [lt_inv_mul_iff₀ (by positivity)]
        have hstep : (2 : ℚ) ^ ((findExp 126 ⟨x.d, x.n⟩ : ℤ) - 1) * 2 =
            2 ^ (findExp 126 ⟨x.d, x.n⟩ : ℤ) := by
          rw [← zpow_add_one₀ (by norm_num : (2 : ℚ) ≠ 0)]
          congr 1
          ring
        have hle : (2 : ℚ) ^ findExp 126 ⟨x.d, x.n⟩ * (x.n : ℚ) ≤ (x.d : ℚ) := by
          exact_mod_cast hl
        have hzc : (2 : ℚ) ^ ((findExp 126 ⟨x.d, x.n⟩ : ℤ)) =
            (2 : ℚ) ^ findExp 126 ⟨x.d, x.n⟩ := zpow_natCast 2 _
        nlinarith [hdq, hpow]
    · rename_i hcond
      push_neg at hcond
      constructor
      · rw [Frac.val, le_div_iff hdq]
        have h2 : (-(findExp 126 ⟨x.d, x.n⟩ : ℤ) - 1) =
            -((findExp 126 ⟨x.d, x.n⟩ : ℤ) + 1) := by ring
        rw [h2, zpow_neg]
        rw [inv_mul_le_iff (by positivity)]
        have : (x.d : ℚ) < 2 ^ (findExp 126 ⟨x.d, x.n⟩ + 1) * (x.n : ℚ) := by
          exact_mod_cast hu
        have hzc : (2 : ℚ) ^ ((findExp 126 ⟨x.d, x.n⟩ : ℤ) + 1) =
            (2 : ℚ) ^ (findExp 126 ⟨x.d, x.n⟩ + 1) := by
          rw [show ((findExp 126 ⟨x.d, x.n⟩ : ℤ) + 1) =
            ((findExp 126 ⟨x.d, x.n⟩ + 1 : ℕ) : ℤ) by push_cast; ring, zpow_natCast]
        rw [hzc]
        linarith
      · rw [Frac.val, div_lt_iff hdq]
        have h2 : (-(findExp 126 ⟨x.d, x.n⟩ : ℤ) - 1 + 1) =
            -(findExp 126 ⟨x.d, x.n⟩ : ℤ) := by ring
        rw [h2, zpow_neg, zpow_natCast]
        rw [lt_inv_mul_iff₀ hpow]
        have : (x.n : ℚ) * 2 ^ findExp 126 ⟨x.d, x.n⟩ < (x.d : ℚ) := by exact_mod_cast hcond
        linarith

theorem rnd32Pos_spec (x : Frac) (hn : 0 < x.n) (hd : 0 < x.d)
    (hub : x.n < 2 ^ 127 * x.d) (hlb : x.d < 2 ^ 127 * x.n) :
    0 < (rnd32Pos x).n ∧ 0 < (rnd32Pos x).d ∧
    |(rnd32Pos x).val - x.val| ≤ x.val / 2 ^ 24 := by
  obtain ⟨hel, heu⟩ := exp2floorPos_spec x hn hd hub hlb
  have hvpos : 0 < x.val := Frac.val_pos hn hd
  have hmd : 0 < (Frac.mul x (Frac.pow2 (23 - exp2floorPos x))).d := by
    show 0 < x.d * _
    exact mul_pos hd (Frac.pow2_d_pos _)
  have hmval : (Frac.mul x (Frac.pow2 (23 - exp2floorPos x))).val =
      x.val * (2 : ℚ) ^ ((23 : ℤ) - exp2floorPos x) := by
    rw [Frac.val_mul hd.ne' (Frac.pow2_d_pos _).ne', Frac.val_pow2]
  have hp23 : (0 : ℚ) < (2 : ℚ) ^ ((23 : ℤ) - exp2floorPos x) := by positivity
  have hmge : (2 : ℚ) ^ (23 : ℕ) ≤ (Frac.mul x (Frac.pow2 (23 - exp2floorPos x))).val := by
    rw [hmval]
    calc (2 : ℚ) ^ (23 : ℕ) = (2 : ℚ) ^ (exp2floorPos x) *
          (2 : ℚ) ^ ((23 : ℤ) - exp2floorPos x) := by
            rw [← zpow_add₀ (by norm_num : (2 : ℚ) ≠ 0)]
            norm_num
      _ ≤ x.val * (2 : ℚ) ^ ((23 : ℤ) - exp2floorPos x) := by
            exact mul_le_mul_of_nonneg_right hel hp23.le
  have herr := rneF_err (x := Frac.mul x (Frac.pow2 (23 - exp2floorPos x))) hmd
  have hNpos : (0 : ℚ) <
      ((rneF (Frac.mul x (Frac.pow2 (23 - exp2floorPos x))) : ℤ) : ℚ) := by
    have h23 : (1 : ℚ) ≤ (2 : ℚ) ^ (23 : ℕ) := by norm_num
    have := abs_sub_le_iff.mp herr
    linarith [this.2]
  refine ⟨?_, ?_, ?_⟩
  · show 0 < rneF _ * (Frac.pow2 (exp2floorPos x - 23)).n
    have hN : 0 < rneF (Frac.mul x (Frac.pow2 (23 - exp2floorPos x))) := by
      exact_mod_cast hNpos
    exact mul_pos hN (Frac.pow2_n_pos _)
  · show 0 < 1 * (Frac.pow2 (exp2floorPos x - 23)).d
    rw [one_mul]
    exact Frac.pow2_d_pos _
  · have hrval : (rnd32Pos x).val =
        ((rneF (Frac.mul x (Frac.pow2 (23 - exp2floorPos x))) : ℤ) : ℚ) *
          (2 : ℚ) ^ (exp2floorPos x - 23) := by
      show (Frac.mul (Frac.ofInt _) (Frac.pow2 (exp2floorPos x - 23))).val = _
      rw [Frac.val_mul (by simp [Frac.ofInt] : (Frac.ofInt _).d ≠ 0) (Frac.pow2_d_pos _).ne']
      rw [Frac.val_ofInt, Frac.val_pow2]
    rw [hrval]
    have hsplit : x.val = x.val * (2 : ℚ) ^ ((23 : ℤ) - exp2floorPos x) *
        (2 : ℚ) ^ (exp2floorPos x - 23) := by
      rw [mul_assoc, ← zpow_add₀ (by norm_num : (2 : ℚ) ≠ 0)]
      norm_num
    calc |((rneF (Frac.mul x (Frac.pow2 (23 - exp2floorPos x))) : ℤ) : ℚ) *
          (2 : ℚ) ^ (exp2floorPos x - 23) - x.val|
        = |((rneF (Frac.mul x (Frac.pow2 (23 - exp2floorPos x))) : ℤ) : ℚ) -
            x.val * (2 : ℚ) ^ ((23 : ℤ) - exp2floorPos x)| *
            (2 : ℚ) ^ (exp2floorPos x - 23) := by
          have hA : (0 : ℚ) < (2 : ℚ) ^ (exp2floorPos x - 23) := by positivity
          rw [show ((rneF (Frac.mul x (Frac.pow2 (23 - exp2floorPos x))) : ℤ) : ℚ) *
              (2 : ℚ) ^ (exp2floorPos x - 23) - x.val =
              (((rneF (Frac.mul x (Frac.pow2 (23 - exp2floorPos x))) : ℤ) : ℚ) -
                x.val * (2 : ℚ) ^ ((23 : ℤ) - exp2floorPos x)) *
                (2 : ℚ) ^ (exp2floorPos x - 23) from by
            nth_rewrite 1 [hsplit]
            ring]
          rw [abs_mul, abs_of_pos hA]
      _ ≤ (1 / 2) * (2 : ℚ) ^ (exp2floorPos x - 23) := by
          apply mul_le_mul_of_nonneg_right _ (by positivity)
          rw [← hmval]
          exact herr
      _ = (2 : ℚ) ^ (exp2floorPos x - 24) := by
          rw [show exp2floorPos x - 24 = (-1) + (exp2floorPos x - 23) from by ring,
            zpow_add₀ (by norm_num : (2 : ℚ) ≠ 0), zpow_neg_one]
          norm_num
      _ ≤ x.val / 2 ^ 24 := by
          rw [show exp2floorPos x - 24 = exp2floorPos x + (-(24 : ℤ)) from by ring,
            zpow_add₀ (by norm_num : (2 : ℚ) ≠ 0), div_eq_mul_inv]
          have h24 : (2 : ℚ) ^ (-(24 : ℤ)) = ((2 : ℚ) ^ (24 : ℕ))⁻¹ := by
            rw [zpow_neg]
            norm_num
          rw [h24]
          exact mul_le_mul_of_nonneg_right hel (by positivity)

theorem rnd32_pos_eq {x : Frac} (hn : 0 < x.n) : rnd32 x = rnd32Pos x := by
  unfold rnd32
  rw [if_pos hn]

theorem ceilF_ge {x : Frac} (hd : 0 < x.d) : x.val ≤ ((ceilF x : ℤ) : ℚ) := by
  have hq := Int.fdiv_add_fmod (-x.n) x.d
  have hr0 : 0 ≤ (-x.n).fmod x.d := Int.fmod_nonneg' (-x.n) hd
  have hle : x.d * (-x.n).fdiv x.d ≤ -x.n := by omega
  have hdq : (0 : ℚ) < (x.d : ℚ) := by exact_mod_cast hd
  have hcast : (x.d : ℚ) * (((-x.n).fdiv x.d : ℤ) : ℚ) ≤ -(x.n : ℚ) := by exact_mod_cast hle
  unfold ceilF
  push_cast
  rw [Frac.val, div_le_iff hdq]
  nlinarith [hcast]

theorem rnd32Pos_val_bounds (x : Frac) (hn : 0 < x.n) (hd : 0 < x.d)
    (hub : x.n < 2 ^ 127 * x.d) (hlb : x.d < 2 ^ 127 * x.n) :
    x.val * (1 - 1 / 2 ^ 24) ≤ (rnd32Pos x).val ∧
    (rnd32Pos x).val ≤ x.val * (1 + 1 / 2 ^ 24) := by
  obtain ⟨-, -, herr⟩ := rnd32Pos_spec x hn hd hub hlb
  obtain ⟨h1, h2⟩ := abs_sub_le_iff.mp herr
  constructor
  · nlinarith [h2]
  · nlinarith [h1]

theorem frac_range_of_val {x : Frac} (hn : 0 < x.n) (hd : 0 < x.d)
    (h1 : x.val < 2 ^ 127) (h2 : (1 : ℚ) / 2 ^ 127 < x.val) :
    x.n < 2 ^ 127 * x.d ∧ x.d < 2 ^ 127 * x.n := by
  have hdq : (0 : ℚ) < (x.d : ℚ) := by exact_mod_cast hd
  constructor
  · have := (div_lt_iff hdq).mp (show x.val < 2 ^ 127 from h1)
    exact_mod_cast this
  · rw [Frac.val, div_lt_div_iff (by norm_num) hdq] at h2
    have : (x.d : ℚ) < 2 ^ 127 * (x.n : ℚ) := by linarith
    exact_mod_cast this

theorem rnd32_ofInt_bounds (z : ℤ) (h1 : 1 ≤ z) (h2 : z ≤ 2 ^ 31) :
    0 < (rnd32 (Frac.ofInt z)).n ∧ 0 < (rnd32 (Frac.ofInt z)).d ∧
    (z : ℚ) * (1 - 1 / 2 ^ 24) ≤ (rnd32 (Frac.ofInt z)).val ∧
    (rnd32 (Frac.ofInt z)).val ≤ (z : ℚ) * (1 + 1 / 2 ^ 24) := by
  have hn : 0 < (Frac.ofInt z).n := by simpa [Frac.ofInt] using h1
  have hd : 0 < (Frac.ofInt z).d := by simp [Frac.ofInt]
  have hub : (Frac.ofInt z).n < 2 ^ 127 * (Frac.ofInt z).d := by
    simp only [Frac.ofInt]
    omega
  have hlb : (Frac.ofInt z).d < 2 ^ 127 * (Frac.ofInt z).n := by
    simp only [Frac.ofInt]
    nlinarith
  rw [rnd32_pos_eq hn]
  obtain ⟨hpn, hpd, -⟩ := rnd32Pos_spec _ hn hd hub hlb
  obtain ⟨hl, hu⟩ := rnd32Pos_val_bounds _ hn hd hub hlb
  rw [Frac.val_ofInt] at hl hu
  exact ⟨hpn, hpd, hl, hu⟩

set_option maxHeartbeats 1600000 in
/-- Lower bound for the float-evaluated capacity: at most five roundings,
each with relative error `2^(-24)`, so the result is at least the exact
share times `1 - 6/2^24`; it is in particular at least 1. -/
theorem currentCapacity_ge (w T C : ℤ) (hw : 1 ≤ w) (hwT : w ≤ T) (hT : T ≤ 2 ^ 31)
    (hC1 : 1 ≤ C) (hC : C ≤ 2 ^ 31) :
    (w : ℚ) / (T : ℚ) * (C : ℚ) * (1 - 6 / 2 ^ 24) ≤ ((currentCapacity w T C : ℤ) : ℚ) ∧
    1 ≤ currentCapacity w T C := by
  have hT1 : (1 : ℤ) ≤ T := le_trans hw hwT
  have hwq : (1 : ℚ) ≤ (w : ℚ) := by exact_mod_cast hw
  have hTq : (1 : ℚ) ≤ (T : ℚ) := by exact_mod_cast hT1
  have hwTq : (w : ℚ) ≤ (T : ℚ) := by exact_mod_cast hwT
  have hT31 : (T : ℚ) ≤ 2 ^ 31 := by exact_mod_cast hT
  have hw31 : (w : ℚ) ≤ 2 ^ 31 := le_trans hwTq hT31
  have hCq : (1 : ℚ) ≤ (C : ℚ) := by exact_mod_cast hC1
  have hC31 : (C : ℚ) ≤ 2 ^ 31 := by exact_mod_cast hC
  rw [show currentCapacity w T C = ceilF (rnd32 (Frac.mul
    (rnd32 (Frac.div (rnd32 (Frac.ofInt w)) (rnd32 (Frac.ofInt T))))
    (rnd32 (Frac.ofInt C)))) from rfl]
  obtain ⟨han, had, hal, hau⟩ := rnd32_ofInt_bounds w hw (le_trans hwT hT)
  obtain ⟨hbn, hbd, hbl, hbu⟩ := rnd32_ofInt_bounds T hT1 hT
  obtain ⟨hcn, hcd, hcl, hcu⟩ := rnd32_ofInt_bounds C hC1 hC
  set a := rnd32 (Frac.ofInt w) with ha
  set b := rnd32 (Frac.ofInt T) with hb
  set c := rnd32 (Frac.ofInt C) with hc
  have haval : 0 < a.val := Frac.val_pos han had
  have hbval : 0 < b.val := Frac.val_pos hbn hbd
  have hcval : 0 < c.val := Frac.val_pos hcn hcd
  -- the quotient
  have hrd : 0 < (Frac.div a b).d := mul_pos had hbn
  have hrn : 0 < (Frac.div a b).n := mul_pos han hbd
  have hrval : (Frac.div a b).val = a.val / b.val :=
    Frac.val_div had.ne' hbn.ne' hbd.ne'
  have hrlb : (w : ℚ) * (1 - 1 / 2 ^ 24) / ((T : ℚ) * (1 + 1 / 2 ^ 24)) ≤
      (Frac.div a b).val := by
    rw [hrval]
    exact div_le_div haval.le hal hbval hbu
  have hrub : (Frac.div a b).val ≤ (w : ℚ) * (1 + 1 / 2 ^ 24) /
      ((T : ℚ) * (1 - 1 / 2 ^ 24)) := by
    rw [hrval]
    exact div_le_div (by nlinarith) hau (by nlinarith) hbl
  have hrub2 : (Frac.div a b).val < 2 := by
    have h1 : (w : ℚ) * (1 + 1 / 2 ^ 24) ≤ (T : ℚ) * (1 + 1 / 2 ^ 24) := by nlinarith
    have h2 : (Frac.div a b).val ≤ (1 + 1 / 2 ^ 24) / (1 - 1 / 2 ^ 24) := by
      calc (Frac.div a b).val ≤ (w : ℚ) * (1 + 1 / 2 ^ 24) /
            ((T : ℚ) * (1 - 1 / 2 ^ 24)) := hrub
        _ ≤ (T : ℚ) * (1 + 1 / 2 ^ 24) / ((T : ℚ) * (1 - 1 / 2 ^ 24)) := by
            exact div_le_div (by nlinarith) h1 (by nlinarith) le_rfl
        _ = (1 + 1 / 2 ^ 24) / (1 - 1 / 2 ^ 24) := by
            rw [mul_div_mul_left]
            linarith
    calc (Frac.div a b).val ≤ (1 + 1 / 2 ^ 24) / (1 - 1 / 2 ^ 24) := h2
      _ < 2 := by norm_num
  have hrlb2 : (1 : ℚ) / 2 ^ 127 < (Frac.div a b).val := by
    calc (1 : ℚ) / 2 ^ 127
        < 1 * (1 - 1 / 2 ^ 24) / (2 ^ 31 * (1 + 1 / 2 ^ 24)) := by norm_num
      _ ≤ (w : ℚ) * (1 - 1 / 2 ^ 24) / ((T : ℚ) * (1 + 1 / 2 ^ 24)) := by
          exact div_le_div (by nlinarith) (by nlinarith) (by nlinarith) (by nlinarith)
      _ ≤ (Frac.div a b).val := hrlb
  obtain ⟨hrr1, hrr2⟩ := frac_range_of_val hrn hrd (lt_trans hrub2 (by norm_num)) hrlb2
  have hqeq : rnd32 (Frac.div a b) = rnd32Pos (Frac.div a b) := rnd32_pos_eq hrn
  obtain ⟨hqn, hqd, -⟩ := rnd32Pos_spec _ hrn hrd hrr1 hrr2
  obtain ⟨hql, hqu⟩ := rnd32Pos_val_bounds _ hrn hrd hrr1 hrr2
  rw [← hqeq] at hqn hqd hql hqu
  set q := rnd32 (Frac.div a b) with hq
  have hqval : 0 < q.val := Frac.val_pos hqn hqd
  -- the product
  have hud : 0 < (Frac.mul q c).d := mul_pos hqd hcd
  have hun : 0 < (Frac.mul q c).n := mul_pos hqn hcn
  have huval : (Frac.mul q c).val = q.val * c.val := Frac.val_mul hqd.ne' hcd.ne'
  have hrpos : (0 : ℚ) < (w : ℚ) * (1 - 1 / 2 ^ 24) / ((T : ℚ) * (1 + 1 / 2 ^ 24)) := by
    apply div_pos
    · nlinarith
    · nlinarith
  have huub : (Frac.mul q c).val < 2 ^ 35 := by
    rw [huval]
    calc q.val * c.val ≤ ((Frac.div a b).val * (1 + 1 / 2 ^ 24)) *
          ((C : ℚ) * (1 + 1 / 2 ^ 24)) :=
          mul_le_mul hqu hcu hcval.le (by nlinarith [Frac.val_pos hrn hrd])
      _ ≤ (2 * (1 + 1 / 2 ^ 24)) * ((2 ^ 31 : ℚ) * (1 + 1 / 2 ^ 24)) :=
          mul_le_mul (by nlinarith [hrub2]) (by nlinarith) (by nlinarith) (by norm_num)
      _ < 2 ^ 35 := by norm_num
  have hulb : (1 : ℚ) / 2 ^ 127 < (Frac.mul q c).val := by
    rw [huval]
    have hql2 : (w : ℚ) * (1 - 1 / 2 ^ 24) / ((T : ℚ) * (1 + 1 / 2 ^ 24)) *
        (1 - 1 / 2 ^ 24) ≤ q.val := by
      calc (w : ℚ) * (1 - 1 / 2 ^ 24) / ((T : ℚ) * (1 + 1 / 2 ^ 24)) *
            (1 - 1 / 2 ^ 24) ≤ (Frac.div a b).val * (1 - 1 / 2 ^ 24) :=
            mul_le_mul_of_nonneg_right hrlb (by norm_num)
        _ ≤ q.val := hql
    have hc2 : (1 : ℚ) * (1 - 1 / 2 ^ 24) ≤ c.val := by nlinarith
    calc (1 : ℚ) / 2 ^ 127
        < (1 * (1 - 1 / 2 ^ 24) / (2 ^ 31 * (1 + 1 / 2 ^ 24)) * (1 - 1 / 2 ^ 24)) *
          (1 * (1 - 1 / 2 ^ 24)) := by norm_num
      _ ≤ ((w : ℚ) * (1 - 1 / 2 ^ 24) / ((T : ℚ) * (1 + 1 / 2 ^ 24)) *
          (1 - 1 / 2 ^ 24)) * (1 * (1 - 1 / 2 ^ 24)) :=
          mul_le_mul_of_nonneg_right
            (mul_le_mul_of_nonneg_right
              (div_le_div (by nlinarith) (by nlinarith) (by nlinarith) (by nlinarith))
              (by norm_num))
            (by norm_num)
      _ ≤ q.val * c.val :=
          mul_le_mul hql2 hc2 (by norm_num) (by nlinarith [hrpos])
  obtain ⟨huu1, huu2⟩ := frac_range_of_val hun hud (lt_trans huub (by norm_num)) hulb
  have hveq : rnd32 (Frac.mul q c) = rnd32Pos (Frac.mul q c) := rnd32_pos_eq hun
  obtain ⟨hvn, hvd, -⟩ := rnd32Pos_spec _ hun hud huu1 huu2
  obtain ⟨hvl, -⟩ := rnd32Pos_val_bounds _ hun hud huu1 huu2
  rw [← hveq] at hvn hvd hvl
  have hvval : 0 < (rnd32 (Frac.mul q c)).val := Frac.val_pos hvn hvd
  -- assemble the chain of lower bounds
  have hchain : (w : ℚ) / (T : ℚ) * (C : ℚ) * (1 - 6 / 2 ^ 24) ≤
      (rnd32 (Frac.mul q c)).val := by
    have s1 : (w : ℚ) * (1 - 1 / 2 ^ 24) / ((T : ℚ) * (1 + 1 / 2 ^ 24)) *
        (1 - 1 / 2 ^ 24) ≤ q.val := by
      calc (w : ℚ) * (1 - 1 / 2 ^ 24) / ((T : ℚ) * (1 + 1 / 2 ^ 24)) *
            (1 - 1 / 2 ^ 24) ≤ (Frac.div a b).val * (1 - 1 / 2 ^ 24) :=
            mul_le_mul_of_nonneg_right hrlb (by norm_num)
        _ ≤ q.val := hql
    have s2 : ((w : ℚ) * (1 - 1 / 2 ^ 24) / ((T : ℚ) * (1 + 1 / 2 ^ 24)) *
        (1 - 1 / 2 ^ 24)) * ((C : ℚ) * (1 - 1 / 2 ^ 24)) ≤ (Frac.mul q c).val := by
      rw [huval]
      apply mul_le_mul s1 hcl (by nlinarith) hqval.le
    have s3 : ((w : ℚ) * (1 - 1 / 2 ^ 24) / ((T : ℚ) * (1 + 1 / 2 ^ 24)) *
        (1 - 1 / 2 ^ 24)) * ((C : ℚ) * (1 - 1 / 2 ^ 24)) * (1 - 1 / 2 ^ 24) ≤
        (rnd32 (Frac.mul q c)).val := by
      calc ((w : ℚ) * (1 - 1 / 2 ^ 24) / ((T : ℚ) * (1 + 1 / 2 ^ 24)) *
            (1 - 1 / 2 ^ 24)) * ((C : ℚ) * (1 - 1 / 2 ^ 24)) * (1 - 1 / 2 ^ 24) ≤
            (Frac.mul q c).val * (1 - 1 / 2 ^ 24) :=
            mul_le_mul_of_nonneg_right s2 (by norm_num)
        _ ≤ (rnd32 (Frac.mul q c)).val := hvl
    have halg : (w : ℚ) / (T : ℚ) * (C : ℚ) * (1 - 6 / 2 ^ 24) ≤
        ((w : ℚ) * (1 - 1 / 2 ^ 24) / ((T : ℚ) * (1 + 1 / 2 ^ 24)) *
          (1 - 1 / 2 ^ 24)) * ((C : ℚ) * (1 - 1 / 2 ^ 24)) * (1 - 1 / 2 ^ 24) := by
      have hTne : (T : ℚ) ≠ 0 := by linarith
      have hfact : ((w : ℚ) * (1 - 1 / 2 ^ 24) / ((T : ℚ) * (1 + 1 / 2 ^ 24)) *
          (1 - 1 / 2 ^ 24)) * ((C : ℚ) * (1 - 1 / 2 ^ 24)) * (1 - 1 / 2 ^ 24) =
          (w : ℚ) / (T : ℚ) * (C : ℚ) * ((1 - 1 / 2 ^ 24) ^ 4 / (1 + 1 / 2 ^ 24)) := by
        field_simp
        ring
      rw [hfact]
      have hconst : (1 - 6 / 2 ^ 24 : ℚ) ≤ (1 - 1 / 2 ^ 24) ^ 4 / (1 + 1 / 2 ^ 24) := by
        rw [le_div_iff (by norm_num)]
        norm_num
      have hpos : (0 : ℚ) ≤ (w : ℚ) / (T : ℚ) * (C : ℚ) := by positivity
      nlinarith [hpos, hconst]
    linarith
  constructor
  · exact le_trans hchain (ceilF_ge hvd)
  · have hcap : (0 : ℚ) < ((ceilF (rnd32 (Frac.mul q c)) : ℤ) : ℚ) :=
      lt_of_lt_of_le hvval (ceilF_ge hvd)
    have h0 : (0 : ℤ) < ceilF (rnd32 (Frac.mul q c)) := by exact_mod_cast hcap
    omega

/-- C5 (counterexample): the capacity function of the source is computed in
binary32 float arithmetic, not exact rational arithmetic. For weight 3,
activeWeightSum 5 and concurrency 25 the exact value of
ceil(weight / activeWeightSum * concurrency) is 15, but the float evaluation
rounds 3/5 up to a binary32 value slightly above 0.6, whose product with 25
exceeds 15, so the source's ceil returns 16. -/
theorem C5_counterexample :
    currentCapacity 3 5 25 = 16 ∧ (⌈(3 : ℚ) / 5 * 25⌉ = 15) ∧ (16 : ℤ) ≠ 15 :=
  ⟨by decide, by norm_num, by decide⟩

/-- C5 (amended): for weights and concurrency in the int32 range the
float-evaluated capacity is at least the exact rational share times
`1 - 6/2^24` (five roundings, each with relative error at most `2^-24`),
and in particular at least 1 for every demanding priority with positive
weight. -/
theorem C5_capacity_at_least_one (w T C : ℤ) (hw : 1 ≤ w) (hwT : w ≤ T)
    (hT : T ≤ 2 ^ 31) (hC1 : 1 ≤ C) (hC : C ≤ 2 ^ 31) :
    (w : ℚ) / (T : ℚ) * (C : ℚ) * (1 - 6 / 2 ^ 24) ≤ ((currentCapacity w T C : ℤ) : ℚ) ∧
    1 ≤ currentCapacity w T C :=
  currentCapacity_ge w T C hw hwT hT hC1 hC

theorem C5_capacity_at_least_one_witness :
    (1 : ℤ) ≤ 1 ∧ (1 : ℤ) ≤ 2 ∧ (2 : ℤ) ≤ 2 ^ 31 ∧ (1 : ℤ) ≤ 2 ∧ (2 : ℤ) ≤ 2 ^ 31 ∧
    ((1 : ℚ) / (2 : ℚ) * (2 : ℚ) * (1 - 6 / 2 ^ 24) ≤ ((currentCapacity 1 2 2 : ℤ) : ℚ) ∧
      1 ≤ currentCapacity 1 2 2) :=
  ⟨by decide, by decide, by decide, by decide, by decide,
    C5_capacity_at_least_one 1 2 2 (by decide) (by decide) (by decide) (by decide)
      (by decide)⟩

/-! ## C7: existence of an eligible priority under the dispatch-loop guard -/

theorem sumRunners_nonneg (s : PML) (h : ∀ p ∈ s.priorities, 0 ≤ p.runners) :
    0 ≤ sumRunners s := by
  apply List.sum_nonneg
  intro x hx
  obtain ⟨p, hp, rfl⟩ := List.mem_map.mp hx
  exact h p hp

theorem sum_getD_range (f : Pri → ℤ) :
    ∀ l : List Pri,
      (Finset.range l.length).sum (fun j => ((l[j]?).map f).getD 0) = (l.map f).sum := by
  intro l
  induction l with
  | nil => simp
  | cons x t ih =>
    simp only [List.length_cons, List.map_cons, List.sum_cons]
    rw [Finset.sum_range_succ']
    simp only [List.getElem?_cons_succ, List.getElem?_cons_zero, ih]
    show (List.map f t).sum + f x = f x + (List.map f t).sum
    ring

theorem sum_runnersAt_le (s : PML) (hnn : ∀ p ∈ s.priorities, 0 ≤ p.runners)
    (A : List ℕ) (hnd : A.Nodup) (hmem : ∀ j ∈ A, j < s.priorities.length) :
    (A.map (runnersAt s)).sum ≤ sumRunners s := by
  have hnnj : ∀ j : ℕ, 0 ≤ runnersAt s j := by
    intro j
    unfold runnersAt
    cases hq : s.priorities[j]? with
    | none => simp
    | some p => simpa using hnn p (mem_of_index hq)
  have h1 : (A.map (runnersAt s)).sum = A.toFinset.sum (runnersAt s) :=
    (List.sum_toFinset _ hnd).symm
  have h2 : A.toFinset ⊆ Finset.range s.priorities.length := by
    intro j hj
    rw [Finset.mem_range]
    exact hmem j (List.mem_toFinset.mp hj)
  have h3 : A.toFinset.sum (runnersAt s) ≤
      (Finset.range s.priorities.length).sum (runnersAt s) :=
    Finset.sum_le_sum_of_subset_of_nonneg h2 (fun j _ _ => hnnj j)
  have h4 : (Finset.range s.priorities.length).sum (runnersAt s) = sumRunners s :=
    sum_getD_range Pri.runners s.priorities
  rw [h1, ← h4]
  exact h3

theorem exists_waiter (s : PML) (hq : 0 < sumQueues s) :
    ∃ j, j < s.priorities.length ∧ qAt s j ≠ [] := by
  by_contra h
  push_neg at h
  have hz : sumQueues s = 0 := by
    apply List.sum_eq_zero
    intro x hx
    obtain ⟨p, hp, rfl⟩ := List.mem_map.mp hx
    obtain ⟨i, hi, he⟩ := List.mem_iff_getElem.mp hp
    have hqi : qAt s i = p.queue := by
      unfold qAt
      rw [List.getElem?_eq_getElem hi, he]
      rfl
    have := h i hi
    rw [hqi] at this
    simp [this]
  omega

theorem cast_sum_map (f : ℕ → ℤ) :
    ∀ A : List ℕ, (((A.map f).sum : ℤ) : ℚ) = (A.map fun j => ((f j : ℤ) : ℚ)).sum := by
  intro A
  induction A with
  | nil => simp
  | cons x t ih => push_cast [List.map_cons, List.sum_cons] at ih ⊢; rw [ih]

theorem wAt_ge_one (s : PML) (hw : ∀ p ∈ s.priorities, 1 ≤ p.weight)
    {j : ℕ} (hj : j < s.priorities.length) : 1 ≤ wAt s j := by
  unfold wAt
  rw [List.getElem?_eq_getElem hj]
  exact hw _ (List.getElem_mem hj)

theorem eligible_of_loaded (s : PML) (hinv : Inv s)
    (hT : s.totalPendingWeights ≤ 2 ^ 31) (hC : s.concurrency ≤ 2 ^ 21)
    (ha : 0 < s.available) (hw : 0 < s.waiting) :
    ∃ j ∈ s.waitingPriorities, eligible s j = true := by
  by_contra hno
  push_neg at hno
  simp only [Bool.not_eq_true] at hno
  -- every active priority is saturated
  have hA : ∀ j ∈ s.waitingPriorities,
      currentCapacity (wAt s j) s.totalPendingWeights s.concurrency ≤ runnersAt s j := by
    intro j hj
    have hjl := hinv.active_mem j hj
    have hqne : qAt s j ≠ [] := (hinv.active_iff j hjl).mp hj
    have hfe := hno j hj
    cases hqe : (qAt s j).isEmpty with
    | true => exact absurd (List.isEmpty_iff.mp hqe) hqne
    | false =>
      unfold eligible at hfe
      rw [hqe] at hfe
      simp only [Bool.not_false, Bool.true_and, decide_eq_false_iff_not, not_lt] at hfe
      exact hfe
  -- weight facts
  have hwj1 : ∀ j ∈ s.waitingPriorities, 1 ≤ wAt s j := fun j hj =>
    wAt_ge_one s hinv.weights_pos (hinv.active_mem j hj)
  have hTj : ∀ j ∈ s.waitingPriorities, wAt s j ≤ s.totalPendingWeights := by
    intro j hj
    have herase := sum_map_erase (wAt s) s.waitingPriorities j hj
    have hnn : 0 ≤ ((s.waitingPriorities.erase j).map (wAt s)).sum := by
      apply List.sum_nonneg
      intro x hx
      obtain ⟨j', hj', rfl⟩ := List.mem_map.mp hx
      have : j' ∈ s.waitingPriorities := List.mem_of_mem_erase hj'
      linarith [hwj1 j' this]
    rw [hinv.tpw_eq]
    linarith
  -- the active set is non-empty and total weight is at least 1
  obtain ⟨j0, hj0l, hj0q⟩ := exists_waiter s (by rw [← hinv.wait_eq]; exact hw)
  have hj0 : j0 ∈ s.waitingPriorities := (hinv.active_iff j0 hj0l).mpr hj0q
  have hT1 : 1 ≤ s.totalPendingWeights := le_trans (hwj1 j0 hj0) (hTj j0 hj0)
  have hC1 : 1 ≤ s.concurrency := by
    have := sumRunners_nonneg s hinv.runners_nonneg
    have := hinv.slots
    omega
  -- per-priority lower bound on runners, over ℚ
  have hTq0 : (0 : ℚ) < (s.totalPendingWeights : ℚ) := by exact_mod_cast hT1
  have hstep : ∀ j ∈ s.waitingPriorities,
      (wAt s j : ℚ) *
        ((s.concurrency : ℚ) * (1 - 6 / 2 ^ 24) / (s.totalPendingWeights : ℚ)) ≤
      (runnersAt s j : ℚ) := by
    intro j hj
    obtain ⟨hlow, -⟩ := currentCapacity_ge (wAt s j) s.totalPendingWeights s.concurrency
      (hwj1 j hj) (hTj j hj) hT hC1 (le_trans hC (by norm_num))
    have hcast :
        ((currentCapacity (wAt s j) s.totalPendingWeights s.concurrency : ℤ) : ℚ) ≤
        (runnersAt s j : ℚ) := by exact_mod_cast hA j hj
    calc (wAt s j : ℚ) *
          ((s.concurrency : ℚ) * (1 - 6 / 2 ^ 24) / (s.totalPendingWeights : ℚ))
        = (wAt s j : ℚ) / (s.totalPendingWeights : ℚ) * (s.concurrency : ℚ) *
          (1 - 6 / 2 ^ 24) := by ring
      _ ≤ ((currentCapacity (wAt s j) s.totalPendingWeights s.concurrency : ℤ) : ℚ) :=
          hlow
      _ ≤ (runnersAt s j : ℚ) := hcast
  -- sum the bounds over the active set
  have hsum := List.sum_le_sum hstep
  have hmulr : (s.waitingPriorities.map fun j => (wAt s j : ℚ) *
      ((s.concurrency : ℚ) * (1 - 6 / 2 ^ 24) / (s.totalPendingWeights : ℚ))).sum =
      (s.waitingPriorities.map fun j => (wAt s j : ℚ)).sum *
      ((s.concurrency : ℚ) * (1 - 6 / 2 ^ 24) / (s.totalPendingWeights : ℚ)) :=
    List.sum_map_mul_right _ _ _
  have hcastw : (s.waitingPriorities.map fun j => (wAt s j : ℚ)).sum =
      ((s.waitingPriorities.map (wAt s)).sum : ℚ) := (cast_sum_map (wAt s) _).symm
  have htot : ((s.waitingPriorities.map (wAt s)).sum : ℚ) =
      (s.totalPendingWeights : ℚ) := by
    rw [hinv.tpw_eq]
  have hlhs : (s.waitingPriorities.map fun j => (wAt s j : ℚ) *
      ((s.concurrency : ℚ) * (1 - 6 / 2 ^ 24) / (s.totalPendingWeights : ℚ))).sum =
      (s.concurrency : ℚ) * (1 - 6 / 2 ^ 24) := by
    rw [hmulr, hcastw, htot]
    field_simp
    ring
  have hcastr : (s.waitingPriorities.map fun j => (runnersAt s j : ℚ)).sum =
      ((s.waitingPriorities.map (runnersAt s)).sum : ℚ) :=
    (cast_sum_map (runnersAt s) _).symm
  have hrle : (s.waitingPriorities.map (runnersAt s)).sum ≤ sumRunners s :=
    sum_runnersAt_le s hinv.runners_nonneg _ hinv.active_nodup hinv.active_mem
  have hrun : sumRunners s ≤ s.concurrency - 1 := by
    have := hinv.slots
    omega
  -- combine and contradict the concurrency bound
  have hfinal : (s.concurrency : ℚ) * (1 - 6 / 2 ^ 24) ≤ (s.concurrency : ℚ) - 1 := by
    rw [hlhs] at hsum
    rw [hcastr] at hsum
    have h1 : ((s.waitingPriorities.map (runnersAt s)).sum : ℚ) ≤
        ((s.concurrency : ℤ) : ℚ) - 1 := by
      have : ((s.waitingPriorities.map (runnersAt s)).sum : ℤ) ≤ s.concurrency - 1 :=
        le_trans hrle hrun
      exact_mod_cast this
    linarith
  have hCq : (s.concurrency : ℚ) ≤ 2 ^ 21 := by exact_mod_cast hC
  linarith

/-- C7 (amended): whenever the dispatch loop's guard holds (`available > 0`
and `waiting > 0`) in an invariant state whose concurrency is at most
`2^21` and whose total pending weight fits in int32, some member of the
waiting-priorities set is eligible (non-empty queue, runners strictly below
the float-computed capacity), so the round-robin scan succeeds.  This is
the claim's guarantee restricted to realistic concurrencies; at
`concurrency = 2^24` the guarantee fails in a reachable state (see the
counterexample), because the float capacities of the active priorities can
round down so far that they sum to `concurrency - 1`. -/
theorem C7_eligible_exists (s : PML) (hinv : Inv s)
    (hT : s.totalPendingWeights ≤ 2 ^ 31) (hC : s.concurrency ≤ 2 ^ 21)
    (ha : 0 < s.available) (hw : 0 < s.waiting) :
    (∃ j ∈ s.waitingPriorities, eligible s j = true) ∧
    (scanFrom s).isSome = true := by
  obtain ⟨j, hj, he⟩ := eligible_of_loaded s hinv hT hC ha hw
  refine ⟨⟨j, hj, he⟩, ?_⟩
  have hj' : j ∈ s.waitingPriorities.drop s.cursor ++ s.waitingPriorities.take s.cursor := by
    rw [List.mem_append]
    have hj2 : j ∈ s.waitingPriorities.take s.cursor ++ s.waitingPriorities.drop s.cursor := by
      rw [List.take_append_drop]
      exact hj
    rcases List.mem_append.mp hj2 with h | h
    · exact Or.inr h
    · exact Or.inl h
  unfold scanFrom
  cases hfind : (s.waitingPriorities.drop s.cursor ++
      s.waitingPriorities.take s.cursor).find? (eligible s) with
  | none =>
    rw [List.find?_eq_none] at hfind
    exact absurd he (hfind j hj')
  | some x => rfl

theorem C7_eligible_exists_witness :
    Inv exElig ∧ exElig.totalPendingWeights ≤ 2 ^ 31 ∧ exElig.concurrency ≤ 2 ^ 21 ∧
    0 < exElig.available ∧ 0 < exElig.waiting ∧
    ((∃ j ∈ exElig.waitingPriorities, eligible exElig j = true) ∧
      (scanFrom exElig).isSome = true) := by
  have hinv : Inv exElig := ⟨by decide, by decide, by decide, by decide, by decide,
    by decide, by decide, by decide, by decide⟩
  exact ⟨hinv, by decide, by decide, by decide, by decide,
    C7_eligible_exists exElig hinv (by decide) (by decide) (by decide) (by decide)⟩

theorem lockA (k : ℕ) (hk : (k : ℤ) < 5640029) :
    lock 0 (stateA k) = some (.granted ⟨false⟩, stateA (k + 1)) := by
  have hcap : currentCapacity 556019486 (0 + 556019486) 16777216 = 16777216 := by
    decide
  unfold lock stateA addRunner
  simp only [Bool.false_eq_true, if_false, if_true, List.getElem?_cons_zero, hcap,
    List.set_cons_zero]
  rw [if_pos (show 0 < 16777216 - (k : ℤ) ∧ (k : ℤ) < 16777216 by constructor <;> omega)]
  simp only [Option.some.injEq, Prod.mk.injEq, PML.mk.injEq, Pri.mk.injEq,
    List.cons.injEq, and_true, true_and]
  push_cast
  refine ⟨by omega, trivial, by omega⟩

theorem lockB (m : ℕ) (hm : (m : ℤ) < 11137187) :
    lock 1 (stateB m) = some (.granted ⟨false⟩, stateB (m + 1)) := by
  have hcap : currentCapacity 1097954098 (0 + 1097954098) 16777216 = 16777216 := by
    decide
  unfold lock stateB addRunner
  simp only [Bool.false_eq_true, if_false, if_true, List.getElem?_cons_succ,
    List.getElem?_cons_zero, hcap, List.set_cons_succ, List.set_cons_zero]
  rw [if_pos (show 0 < 16777216 - 5640029 - (m : ℤ) ∧ (m : ℤ) < 16777216 by
    constructor <;> omega)]
  simp only [Option.some.injEq, Prod.mk.injEq, PML.mk.injEq, Pri.mk.injEq,
    List.cons.injEq, and_true, true_and]
  push_cast
  refine ⟨by omega, trivial, by omega⟩

theorem reachA : ∀ k : ℕ, k ≤ 5640029 →
    Reach (init 16777216 [556019486, 1097954098]) (stateA k) := by
  intro k
  induction k with
  | zero =>
    intro _
    have h0 : stateA 0 = init 16777216 [556019486, 1097954098] := by decide
    rw [h0]
    exact Relation.ReflTransGen.refl
  | succ n ih =>
    intro hn
    exact Relation.ReflTransGen.tail (ih (by omega))
      (Step.lockStep (lockA n (by omega)))

theorem reachB : ∀ m : ℕ, m ≤ 11137187 →
    Reach (init 16777216 [556019486, 1097954098]) (stateB m) := by
  intro m
  induction m with
  | zero =>
    intro _
    have h0 : stateB 0 = stateA 5640029 := by decide
    rw [h0]
    exact reachA 5640029 le_rfl
  | succ n ih =>
    intro hn
    exact Relation.ReflTransGen.tail (ih (by omega))
      (Step.lockStep (lockB n (by omega)))

theorem reach_stateBad : Reach (init 16777216 [556019486, 1097954098]) stateBad := by
  have hB := reachB 11137187 le_rfl
  have h1 : lock 0 (stateB 11137187) = some (.queued 0, stateQ1) := by decide
  have h2 : lock 1 stateQ1 = some (.queued 1, stateQ2) := by decide
  have h3 : handleRelease stateQ2 1 = stateBad := by decide
  have s1 := Relation.ReflTransGen.tail hB (Step.lockStep h1)
  have s2 := Relation.ReflTransGen.tail s1 (Step.lockStep h2)
  have hstep3 : Step stateQ2 stateBad := by
    rw [← h3]
    exact Step.releaseStep (by decide) (by decide)
  exact Relation.ReflTransGen.tail s2 hstep3

/-- C7 (counterexample): in the reachable state `stateBad` the dispatch
loop's outer condition holds (`available = 1 > 0`, `waiting = 2 > 0`) but
no waiting priority is eligible — both sit exactly at their float-computed
capacity (5640029 + 11137186 = 2^24 - 1) — so the round-robin scan never
exits and no grant can ever be issued. -/
theorem C7_counterexample :
    Reach (init 16777216 [556019486, 1097954098]) stateBad ∧
    0 < stateBad.available ∧ 0 < stateBad.waiting ∧
    (stateBad.waitingPriorities.all fun j => !eligible stateBad j) = true ∧
    scanFrom stateBad = none ∧
    dispatchOnce false stateBad = none ∧
    dispatchOnce true stateBad = none :=
  ⟨reach_stateBad, by decide, by decide, by decide, by decide, by decide, by decide⟩

end PMLVerify
